import Mathlib

/-!
Verification of the dependency-graph command layer of fromager
(src/src/fromager/commands/graph.py): conflict explanation, provenance
explanation, legacy-graph migration and the build-plan export.

The graph data structures (DependencyNode, Edge, DependencyGraph, ROOT,
RequirementType) live in fromager/dependency_graph.py and
fromager/requirements_file.py, which are not part of the source tree here;
they are modelled from the specification, section 3 and 4.1.  The command
functions themselves are translated from src/src/fromager/commands/graph.py.
Recursive traversals of the Python code are embedded with an explicit fuel
argument so that every function is structurally recursive and computable;
theorems quantify over the fuel or show that a sufficient fuel exists.
-/

/-- Modelled from the spec: a parsed, comparable version value
(packaging.version.Version).  Two numeric components suffice for every
version appearing in the claims; comparison is lexicographic. -/
structure Version where
  major : Nat
  minor : Nat
deriving DecidableEq, Repr

/-- Lexicographic comparison of versions, as a Bool. -/
def Version.leb (a b : Version) : Bool :=
  decide (a.major < b.major ∨ (a.major = b.major ∧ a.minor ≤ b.minor))

/-- Rendering of a version as text, used in synthesized target names. -/
def Version.toStr (v : Version) : String :=
  toString v.major ++ "." ++ toString v.minor

/-- Rendering of an optional version; the Python code formats None as the
text None when interpolating a missing version. -/
def versionString : Option Version → String
  | some v => v.toStr
  | none => "None"

/-- Modelled from the spec: requirement types distinguishing build-time
requirements from runtime requirements and root-level requests
(fromager.requirements_file.RequirementType). -/
inductive ReqType where
  | toplevel
  | install
  | build
  | buildSystem
  | buildBackend
deriving DecidableEq, Repr

/-- Modelled from the spec: an install-type edge is a dependency required at
runtime after installation; the toplevel edges from ROOT also count, while
the pure build-time types (build, build-system, build-backend) do not. -/
def ReqType.is_install_requirement : ReqType → Bool
  | .install => true
  | .toplevel => true
  | _ => false

/-- Modelled from the spec glossary: a build-type edge is a dependency
required only to execute the build process, not at runtime. -/
def ReqType.is_build_type : ReqType → Bool
  | .build => true
  | .buildSystem => true
  | .buildBackend => true
  | _ => false

/-- Modelled from the spec: the version constraint of a requirement
(packaging.specifiers).  The two forms exercised by the claims are exact
pins and lower bounds. -/
inductive Specifier where
  | eq (v : Version)
  | ge (v : Version)
deriving DecidableEq, Repr

/-- Acceptance test of a specifier on one candidate version. -/
def Specifier.accepts : Specifier → Version → Bool
  | .eq w, v => decide (v = w)
  | .ge w, v => Version.leb w v

/-- Modelled from the spec: a requirement specifier, name plus version
constraint (packaging.requirements.Requirement).  Requirement values compare
by content, matching how the Python code groups edges by requirement. -/
structure Requirement where
  name : String
  specifier : Specifier
deriving DecidableEq, Repr

/-- Canonicalization of a package name: runs of hyphen, underscore and dot
collapse to a single hyphen and letters fold to lower case, per the standard
name-canonicalization rule used by packaging.utils.canonicalize_name. -/
def canonChars : Bool → List Char → List Char
  | _, [] => []
  | prevSep, c :: cs =>
    if c = '-' ∨ c = '_' ∨ c = '.' then
      if prevSep then canonChars true cs else '-' :: canonChars true cs
    else
      c.toLower :: canonChars false cs

/-- Canonicalize a package name. -/
def canonicalize_name (s : String) : String :=
  ⟨canonChars false s.data⟩

/-- Modelled from the spec: a node key is either the sentinel ROOT or the
pair of a package name and a version (rendered name==version in the file
format). -/
inductive Key where
  | root
  | pkg (name : String) (version : Version)
deriving DecidableEq, Repr

/-- Modelled from the spec: an edge record stored on a node.  It holds the
declared requirement, its type, and the key of the node at the other end;
the same record shape serves the children list (destination is the
requirement) and the parents list (destination is the requirer). -/
structure Edge where
  req_type : ReqType
  req : Requirement
  destination_key : Key
deriving DecidableEq, Repr

/-- Modelled from the spec: a dependency node with its identity and the two
append-only edge sequences. -/
structure DependencyNode where
  key : Key
  canonicalized_name : String
  version : Option Version
  children : List Edge
  parents : List Edge
deriving DecidableEq, Repr

/-- Version of a node with a default for the ROOT node; every use in the
command layer applies it to non-root nodes only. -/
def DependencyNode.versionD (n : DependencyNode) : Version :=
  n.version.getD ⟨0, 0⟩

/-- Subset of the parents whose requirement type is an install-type edge
(DependencyNode.get_incoming_install_edges, modelled from the spec). -/
def DependencyNode.get_incoming_install_edges (n : DependencyNode) : List Edge :=
  n.parents.filter (fun e => e.req_type.is_install_requirement)

/-- Modelled from the spec: the graph is a mapping from key to node holding
exactly one ROOT node; insertion order of nodes is preserved. -/
structure DependencyGraph where
  nodes : List DependencyNode
deriving DecidableEq, Repr

/-- The ROOT node: no name, no version, created with the graph. -/
def rootNode : DependencyNode :=
  ⟨Key.root, "", none, [], []⟩

/-- A graph as created empty: only the ROOT node. -/
def DependencyGraph.empty : DependencyGraph :=
  ⟨[rootNode]⟩

/-- Lookup of a node by key. -/
def DependencyGraph.find? (g : DependencyGraph) (k : Key) : Option DependencyNode :=
  g.nodes.find? (fun n => n.key = k)

/-- Total lookup of a node by key; absent keys give a fresh empty node, a
case the well-formedness invariant of the graph rules out. -/
def DependencyGraph.findNode (g : DependencyGraph) (k : Key) : DependencyNode :=
  (g.find? k).getD ⟨k, "", none, [], []⟩

/-- The sentinel node (DependencyGraph.get_root_node). -/
def DependencyGraph.get_root_node (g : DependencyGraph) : DependencyNode :=
  g.findNode Key.root

/-- All nodes whose canonicalized name matches the canonicalized query
(DependencyGraph.get_nodes_by_name, modelled from the spec: lookups for an
absent name return an empty result, never an error). -/
def DependencyGraph.get_nodes_by_name (g : DependencyGraph) (name : String) : List DependencyNode :=
  g.nodes.filter (fun n => n.canonicalized_name = canonicalize_name name)

/-- Add the node for a key if it is not present yet, keeping insertion
order. -/
def DependencyGraph.ensureNode (g : DependencyGraph) (k : Key) (name : String)
    (version : Option Version) : DependencyGraph :=
  if g.nodes.any (fun n => n.key = k) then g
  else ⟨g.nodes ++ [⟨k, name, version, [], []⟩]⟩

/-- Append an outgoing edge record to the node with the given key. -/
def DependencyGraph.addChildEdge (g : DependencyGraph) (k : Key) (e : Edge) : DependencyGraph :=
  ⟨g.nodes.map (fun n => if n.key = k then { n with children := n.children ++ [e] } else n)⟩

/-- Append an incoming edge record to the node with the given key. -/
def DependencyGraph.addParentEdge (g : DependencyGraph) (k : Key) (e : Edge) : DependencyGraph :=
  ⟨g.nodes.map (fun n => if n.key = k then { n with parents := n.parents ++ [e] } else n)⟩

/-- Modelled from the spec: the only mutation of the graph.  It
canonicalizes the parent name, looks up or creates the parent node
(resolving to ROOT when the parent is absent), looks up or creates the child
node keyed by the canonicalized requirement name and the resolved version,
and appends a new edge on both endpoints.  It is deliberately not
idempotent: every call appends fresh edge records. -/
def DependencyGraph.add_dependency (g : DependencyGraph)
    (parent : Option (String × Version)) (req_type : ReqType)
    (req_version : Version) (req : Requirement) : DependencyGraph :=
  let pinfo : Key × String × Option Version :=
    match parent with
    | none => (Key.root, "", none)
    | some (n, v) =>
      let cn := canonicalize_name n
      (Key.pkg cn v, cn, some v)
  let cname := canonicalize_name req.name
  let ckey := Key.pkg cname req_version
  let g := g.ensureNode pinfo.1 pinfo.2.1 pinfo.2.2
  let g := g.ensureNode ckey cname (some req_version)
  let g := g.addChildEdge pinfo.1 ⟨req_type, req, ckey⟩
  g.addParentEdge ckey ⟨req_type, req, pinfo.1⟩

/-! ## Association-list helpers mirroring Python dict and set behavior -/

/-- Lookup in an insertion-ordered association list whose values are lists;
an absent key gives the empty list. -/
def lookupAssoc {α β : Type} [DecidableEq α] (a : List (α × List β)) (k : α) : List β :=
  ((a.find? (fun p => p.1 = k)).map (fun p => p.2)).getD []

/-- Membership test for a key of an association list. -/
def hasKey {α β : Type} [DecidableEq α] (a : List (α × List β)) (k : α) : Bool :=
  a.any (fun p => p.1 = k)

/-- Mirror of setdefault(k, set()).add(x): create the entry on first use and
add the element with set semantics, keeping insertion order. -/
def assocAddSet {α β : Type} [DecidableEq α] [DecidableEq β]
    (a : List (α × List β)) (k : α) (x : β) : List (α × List β) :=
  if hasKey a k then
    a.map (fun p => if p.1 = k then (p.1, if x ∈ p.2 then p.2 else p.2 ++ [x]) else p)
  else
    a ++ [(k, [x])]

/-- Mirror of setdefault(k, []).extend(xs): create the entry on first use and
append the elements, keeping duplicates. -/
def assocExtend {α β : Type} [DecidableEq α]
    (a : List (α × List β)) (k : α) (xs : List β) : List (α × List β) :=
  if hasKey a k then
    a.map (fun p => if p.1 = k then (p.1, p.2 ++ xs) else p)
  else
    a ++ [(k, xs)]

/-- Append one value to the list stored under a key, creating the entry on
first use (grouping helper). -/
def assocAppend {α β : Type} [DecidableEq α]
    (a : List (α × List β)) (k : α) (x : β) : List (α × List β) :=
  if hasKey a k then
    a.map (fun p => if p.1 = k then (p.1, p.2 ++ [x]) else p)
  else
    a ++ [(k, [x])]

/-- Insertion step of the stable sort of nodes by ascending version. -/
def insertByVersion (n : DependencyNode) : List DependencyNode → List DependencyNode
  | [] => [n]
  | m :: ms =>
    if Version.leb n.versionD m.versionD then n :: m :: ms
    else m :: insertByVersion n ms

/-- Stable sort of nodes by ascending version, mirroring sorted(nodes,
key=version). -/
def sortNodesByVersion (l : List DependencyNode) : List DependencyNode :=
  l.foldr insertByVersion []

/-- Lexicographic comparison of character lists by code point, the order
Python uses on package-name text. -/
def charsLe : List Char → List Char → Bool
  | [], _ => true
  | _ :: _, [] => false
  | c :: cs, d :: ds =>
    if c.toNat < d.toNat then true
    else if d.toNat < c.toNat then false
    else charsLe cs ds

/-- Lexicographic comparison of names. -/
def nameLe (a b : String) : Bool :=
  charsLe a.data b.data

/-- Insertion step of the sort of the conflicts mapping by package name. -/
def insertByName (p : String × List DependencyNode) :
    List (String × List DependencyNode) → List (String × List DependencyNode)
  | [] => [p]
  | q :: qs => if nameLe p.1 q.1 then p :: q :: qs else q :: insertByName p qs

/-- Sort of the conflicts mapping by package name, mirroring
sorted(conflicts.items()). -/
def sortConflictsByName (l : List (String × List DependencyNode)) :
    List (String × List DependencyNode) :=
  l.foldr insertByName []

/-! ## Install closure (modelled from the spec, section 4.1) -/

/-- Worklist traversal collecting the nodes reachable from ROOT through
install-type edges only, in first-seen order; fuel bounds the number of
iterations and any fuel at least the total edge count plus the node count
suffices for the graphs built here. -/
def installClosureGo (g : DependencyGraph) :
    Nat → List Key → List Key → List DependencyNode → List DependencyNode
  | 0, _, _, acc => acc.reverse
  | _ + 1, [], _, acc => acc.reverse
  | fuel + 1, k :: rest, visited, acc =>
    if k ∈ visited then installClosureGo g fuel rest visited acc
    else
      match g.find? k with
      | none => installClosureGo g fuel rest (k :: visited) acc
      | some node =>
        let childKeys :=
          (node.children.filter (fun e => e.req_type.is_install_requirement)).map
            (fun e => e.destination_key)
        installClosureGo g fuel (rest ++ childKeys) (k :: visited) (node :: acc)

/-- Modelled from the spec: the transitive closure of nodes reachable from
ROOT by following only install-type edges, ROOT itself excluded. -/
def DependencyGraph.get_install_dependencies (g : DependencyGraph) (fuel : Nat) :
    List DependencyNode :=
  let start :=
    ((g.get_root_node.children.filter (fun e => e.req_type.is_install_requirement)).map
      (fun e => e.destination_key))
  installClosureGo g fuel start [Key.root] []

/-- Modelled from the spec: mapping from canonicalized package name to the
distinct nodes of that name in the install closure. -/
def DependencyGraph.get_install_dependency_versions (g : DependencyGraph) (fuel : Nat) :
    List (String × List DependencyNode) :=
  (g.get_install_dependencies fuel).foldl
    (fun acc n => assocAppend acc n.canonicalized_name n) []

/-! ## Conflict explanation (explain_duplicates, graph.py lines 119-161) -/

/-- Grouping of the incoming install edges of one node by requirement, each
group holding the set of parent keys that declared that requirement
(parents_by_req in the source). -/
def parentsByReq (node : DependencyNode) : List (Requirement × List Key) :=
  node.get_incoming_install_edges.foldl
    (fun acc e => assocAddSet acc e.req e.destination_key) []

/-- Accumulator state of the per-package loop of explain_duplicates:
user_counter and usable_versions of the source. -/
structure PackageAccum where
  user_counter : Nat
  usable_versions : List (Version × List Key)
deriving DecidableEq, Repr

/-- Inner loop of explain_duplicates over the requirement groups of one
node: count the parents of each group into user_counter, filter the full
candidate version list through the specifier of the group, and extend the
acceptor list of every matching version with the parents of the group. -/
def processGroups (versions : List Version) (acc : PackageAccum)
    (groups : List (Requirement × List Key)) : PackageAccum :=
  groups.foldl
    (fun acc g =>
      let match_versions := versions.filter (fun v => g.1.specifier.accepts v)
      { user_counter := acc.user_counter + g.2.length,
        usable_versions :=
          match_versions.foldl (fun uv mv => assocExtend uv mv g.2) acc.usable_versions })
    acc

/-- The accumulated state after the per-version loop of explain_duplicates
for one package: nodes are visited sorted by ascending version and every
specifier filters the entire version list. -/
def explainPackageAccum (nodes : List DependencyNode) : PackageAccum :=
  let versions := nodes.map DependencyNode.versionD
  (sortNodesByVersion nodes).foldl
    (fun acc node => processGroups versions acc (parentsByReq node)) ⟨0, []⟩

/-- Final check of explain_duplicates for one package: the first accumulated
version whose acceptor list length equals user_counter is reported usable by
all consumers; when none qualifies the package has no single usable
version. -/
def explainPackageVerdict (nodes : List DependencyNode) : Option Version :=
  let acc := explainPackageAccum nodes
  ((acc.usable_versions.find? (fun p => p.2.length = acc.user_counter)).map (fun p => p.1))

/-- Report line for one requirement group of one version. -/
structure GroupReport where
  req : Requirement
  parents : List Key
  match_versions : List Version
deriving DecidableEq, Repr

/-- Report for one package with more than one version in use: the versions
in ascending order with their requirement groups, and the verdict. -/
structure PackageReport where
  dep_name : String
  reports : List (Version × List GroupReport)
  verdict : Option Version
deriving DecidableEq, Repr

/-- The per-version report lines of explain_duplicates for one package. -/
def versionReportsOf (nodes : List DependencyNode) : List (Version × List GroupReport) :=
  let versions := nodes.map DependencyNode.versionD
  (sortNodesByVersion nodes).map
    (fun n =>
      (n.versionD,
        (parentsByReq n).map
          (fun g => ⟨g.1, g.2, versions.filter (fun v => g.1.specifier.accepts v)⟩)))

/-- The explain-duplicates command: packages of the install closure with
more than one version in use, sorted by name, each with its report and
verdict (graph.py lines 119-161). -/
def explain_duplicates (g : DependencyGraph) (fuel : Nat) : List PackageReport :=
  let conflicts := g.get_install_dependency_versions fuel
  (sortConflictsByName conflicts).filterMap
    (fun p =>
      if (p.2.map DependencyNode.versionD).length = 1 then none
      else some ⟨p.1, versionReportsOf p.2, explainPackageVerdict p.2⟩)

/-! ## Declarative counting rules, written from the words of the spec -/

/-- The total consumer count of a package, as the spec words it: the sum of
the per-specifier-group parent counts over all versions, never deduplicated
across groups. -/
def totalConsumerCount (nodes : List DependencyNode) : Nat :=
  (((sortNodesByVersion nodes).map
    (fun n => ((parentsByReq n).map (fun g => g.2.length)).sum)).sum)

/-- The number of accepting parents accumulated for one candidate version,
as the spec words it: the sum, over all versions and groups, of the parent
counts of the groups whose specifier accepts the candidate. -/
def acceptorCount (nodes : List DependencyNode) (v : Version) : Nat :=
  (((sortNodesByVersion nodes).map
    (fun n =>
      ((parentsByReq n).map
        (fun g =>
          if v ∈ (nodes.map DependencyNode.versionD).filter
              (fun w => g.1.specifier.accepts w) then g.2.length
          else 0)).sum)).sum)

/-- A version is accumulated when at least one requirement group of one
visited node accepts it as a member of the full candidate version list. -/
def IsAccumulated (nodes : List DependencyNode) (v : Version) : Prop :=
  ∃ n ∈ sortNodesByVersion nodes, ∃ g ∈ parentsByReq n,
    v ∈ (nodes.map DependencyNode.versionD).filter (fun w => g.1.specifier.accepts w)

/-! ## Provenance explanation (find_why and the why command, graph.py
lines 189-233) -/

/-- One line of output of find_why: a toplevel report, a dependency
relationship report carrying the indentation depth, or the report that no
matching provenance path was found. -/
inductive WhyEvent where
  | toplevel (key : Key)
  | dep (depth : Nat) (req_type : ReqType) (parentKey : Key) (req : Requirement)
  | notFound (name : String) (filter : List ReqType)
deriving DecidableEq, Repr

/-- Indentation depth carried by a dependency report; the other report
forms carry none. -/
def WhyEvent.depthOf : WhyEvent → Nat
  | .dep d _ _ _ => d
  | _ => 0

/-- An edge of the parents list is skipped by the loop of find_why when its
far end is ROOT or when a requirement-type filter is supplied and excludes
its type. -/
def whySkipped (rt : List ReqType) (p : Edge) : Prop :=
  p.destination_key = Key.root ∨ (rt ≠ [] ∧ p.req_type ∉ rt)

instance (rt : List ReqType) (p : Edge) : Decidable (whySkipped rt p) := by
  unfold whySkipped; infer_instance

/-- Body of the loop of find_why over one parent edge, threading the state
(all_skipped, is_toplevel, output so far); the recursion into the parent is
passed in as a function. -/
def whyStep (max_depth : Int) (depth : Nat) (req_type : List ReqType) (nodeKey : Key)
    (recur : Edge → List WhyEvent)
    (st : Bool × Bool × List WhyEvent) (parent : Edge) : Bool × Bool × List WhyEvent :=
  if parent.destination_key = Key.root then
    (st.1, true, st.2.2 ++ [WhyEvent.toplevel nodeKey])
  else if req_type ≠ [] ∧ parent.req_type ∉ req_type then
    st
  else
    let out := st.2.2 ++ [WhyEvent.dep depth parent.req_type parent.destination_key parent.req]
    let out :=
      if max_depth ≠ 0 ∧ (max_depth = -1 ∨ (depth : Int) ≤ max_depth) then
        out ++ recur parent
      else out
    (false, st.2.1, out)

/-- The find_why traversal (graph.py lines 207-233): walk the incoming
edges, report toplevel parents, skip filter-excluded edges, report the
surviving relationships and recurse with the filter cleared while depth
budget remains; report a missing provenance path when every edge was
skipped and none led to ROOT.  The fuel argument bounds the recursion depth
and is consumed one unit per level. -/
def find_why (g : DependencyGraph) :
    Nat → DependencyNode → Int → Nat → List ReqType → List WhyEvent
  | 0, _, _, _, _ => []
  | fuel + 1, node, max_depth, depth, req_type =>
    let st := node.parents.foldl
      (whyStep max_depth depth req_type node.key
        (fun parent =>
          find_why g fuel (g.findNode parent.destination_key) max_depth (depth + 1) []))
      (true, false, [])
    if st.1 && !st.2.1 then
      st.2.2 ++ [WhyEvent.notFound node.canonicalized_name req_type]
    else st.2.2

/-- The why command (graph.py lines 189-204): collect the nodes matching the
package name, narrow them by the optional version filter, and run find_why
from each; the output pairs each matched node key with its report lines. -/
def whyCmd (g : DependencyGraph) (fuel : Nat) (package_name : String)
    (version : List Version) (depth : Int) (requirement_type : List ReqType) :
    List (Key × List WhyEvent) :=
  let package_nodes := g.get_nodes_by_name package_name
  let package_nodes :=
    if version = [] then package_nodes
    else package_nodes.filter
      (fun n => match n.version with
        | some v => decide (v ∈ version)
        | none => false)
  package_nodes.map (fun n => (n.key, find_why g fuel n depth 1 requirement_type))

/-! ## Legacy graph migration (migrate_graph, graph.py lines 247-270) -/

/-- One adjacency tuple of the legacy flat format: requirement type,
requirement name, resolved version and the requirement specifier, already
parsed (the Python code parses the four strings at this point and a parse
failure aborts the migration). -/
structure LegacyEntry where
  req_type : ReqType
  req_name : String
  req_version : Version
  req : Requirement
deriving DecidableEq, Repr

/-- A legacy flat-format graph: a mapping from key to adjacency tuples,
modelled as an association list in file order. -/
abbrev LegacyGraph : Type := List (Key × List LegacyEntry)

/-- Lookup of the adjacency tuples recorded under a key; a missing key
yields the empty list, mirroring old_graph.get(curr_key, []). -/
def lookupEntries (old : LegacyGraph) (k : Key) : List LegacyEntry :=
  ((old.find? (fun p => p.1 = k)).map (fun p => p.2)).getD []

/-- The key pushed on the worklist for an adjacency tuple, built from the
raw requirement name and version exactly as the source formats
req_name==req_version. -/
def entryChildKey (e : LegacyEntry) : Key :=
  Key.pkg e.req_name e.req_version

/-- The parent argument passed to add_dependency for a worklist key: the
embedded name and version of the key, or none for the ROOT key, whose empty
name parses as the absent parent. -/
def keyParent : Key → Option (String × Version)
  | Key.root => none
  | Key.pkg n v => some (n, v)

/-- Process the adjacency tuples of one key: one add_dependency call per
tuple. -/
def processEntries (k : Key) (g : DependencyGraph) (entries : List LegacyEntry) :
    DependencyGraph :=
  entries.foldl
    (fun g e => g.add_dependency (keyParent k) e.req_type e.req_version e.req) g

/-- The worklist loop of migrate_graph: pop a key, skip it when already
visited, otherwise add one dependency per recorded tuple, push every child
key, and mark the key visited.  The list head is the top of the stack, so a
run of pushes lands in reverse order, exactly as list.append and list.pop
behave in the source.  The traversal order of processed keys is returned
alongside the graph; fuel bounds the number of loop iterations and the
value none reports fuel exhaustion. -/
def migrateGo (old : LegacyGraph) :
    Nat → List Key → List Key → DependencyGraph → List Key →
    Option (DependencyGraph × List Key)
  | _, [], _, g, log => some (g, log)
  | 0, _ :: _, _, _, _ => none
  | fuel + 1, k :: rest, visited, g, log =>
    if k ∈ visited then migrateGo old fuel rest visited g log
    else
      let entries := lookupEntries old k
      let g2 := processEntries k g entries
      let pushed := entries.map entryChildKey
      migrateGo old fuel (pushed.reverse ++ rest) (k :: visited) g2 (log ++ [k])

/-- The migrate-graph command body: worklist traversal from the ROOT key
over an empty graph. -/
def migrate_graph (old : LegacyGraph) (fuel : Nat) :
    Option (DependencyGraph × List Key) :=
  migrateGo old fuel [Key.root] [] DependencyGraph.empty []

/-- A key is reachable in a legacy graph when it is the ROOT key or the
child key of an adjacency tuple recorded under a reachable key. -/
inductive LegacyReachable (old : LegacyGraph) : Key → Prop where
  | root : LegacyReachable old Key.root
  | step {k : Key} {e : LegacyEntry} : LegacyReachable old k →
      e ∈ lookupEntries old k → LegacyReachable old (entryChildKey e)

/-- Every key the worklist can ever hold: the ROOT key and the child key of
every recorded adjacency tuple, deduplicated. -/
def legacyUniverse (old : LegacyGraph) : List Key :=
  (Key.root :: old.flatMap (fun p => p.2.map entryChildKey)).dedup

/-- Upper bound on the number of keys one processing step can push: the
total number of recorded adjacency tuples. -/
def legacyEntryBound (old : LegacyGraph) : Nat :=
  (old.map (fun p => p.2.length)).sum

/-- Loop measure of the migration: pending stack length plus a weighted
count of the universe keys not yet visited. -/
def migrateMeasure (old : LegacyGraph) (stack visited : List Key) : Nat :=
  stack.length +
    (legacyEntryBound old + 1) * ((legacyUniverse old).filter (fun k => k ∉ visited)).length

/-! ## Build-plan export (MakeNode, graph.py lines 279-345) -/

/-- A rule-tree node of the build plan: the synthesized target name, the
carried package identity and build command, and the dependency subtargets in
insertion order. -/
inductive MakeNode where
  | mk (target_name : String) (dist_name : Option String)
      (dist_version : Option Version) (command : String)
      (dependencies : List MakeNode)

/-- Target name of a rule-tree node. -/
def MakeNode.target_name : MakeNode → String
  | .mk tn _ _ _ _ => tn

/-- Dependency subtargets of a rule-tree node. -/
def MakeNode.dependencies : MakeNode → List MakeNode
  | .mk _ _ _ _ ds => ds

/-- Build command of a rule-tree node. -/
def MakeNode.command : MakeNode → String
  | .mk _ _ _ cmd _ => cmd

/-- Synthesized target name of a graph node. -/
def graphTargetName (node : DependencyNode) : String :=
  node.canonicalized_name ++ "__" ++ versionString node.version

/-- Build command carried by the wheel stage of a graph node. -/
def wheelCommand (node : DependencyNode) : String :=
  "\tfromager build $(WHEEL_SERVER_ARGS) " ++ node.canonicalized_name ++ " "
    ++ versionString node.version ++ " $(SDIST_SERVER_URL)"

/-- MakeNode.from_graph_node (graph.py lines 317-345): walk the children
once, sending each child subtree to the build stage when its edge type is
exactly build and to the install stage otherwise; attach the build stage
only when it has dependencies, always attach the wheel stage carrying the
build command, and attach the install stage only when it has dependencies.
Fuel bounds the recursion depth; one unit is consumed per level. -/
def MakeNode.from_graph_node (g : DependencyGraph) :
    Nat → DependencyNode → MakeNode
  | 0, node => .mk (graphTargetName node) none none "" []
  | fuel + 1, node =>
    let target_name := graphTargetName node
    let stages : List MakeNode × List MakeNode := node.children.foldl
      (fun acc child_edge =>
        let child :=
          MakeNode.from_graph_node g fuel (g.findNode child_edge.destination_key)
        if child_edge.req_type = ReqType.build then (acc.1 ++ [child], acc.2)
        else (acc.1, acc.2 ++ [child]))
      ([], [])
    let build_node := MakeNode.mk (target_name ++ "__build") none none "" stages.1
    let wheel_node := MakeNode.mk (target_name ++ "__wheel")
      (some node.canonicalized_name) node.version (wheelCommand node) []
    let install_node := MakeNode.mk (target_name ++ "__install") none none "" stages.2
    MakeNode.mk target_name none none ""
      ((if stages.1.isEmpty then [] else [build_node]) ++ [wheel_node] ++
        (if stages.2.isEmpty then [] else [install_node]))

/-- One emitted rule block of MakeNode.format: the pieces interpolated into
the rule text. -/
structure FormatRule where
  target_name : String
  dependency_names : List String
  command : String
deriving DecidableEq, Repr

/-- Unique list of dependency names in first-appearance order, as the
source builds dependency_names. -/
def dedupNames (names : List String) : List String :=
  names.foldl (fun acc tn => if tn ∈ acc then acc else acc ++ [tn]) []

/-- MakeNode.format (graph.py lines 296-315) at the level of rule blocks:
a node whose target name is in the seen set emits nothing; otherwise its
name enters the seen set, its own rule block is emitted with the unique
dependency names, and the dependencies are formatted in order threading the
seen set.  The traversal of one node and the traversal of a dependency list
are merged into one function on lists; formatting a node is formatting the
one-element list.  Fuel bounds the recursion and is consumed one unit per
step. -/
def formatRulesList : Nat → List MakeNode → List String → List FormatRule × List String
  | 0, _, seen => ([], seen)
  | _ + 1, [], seen => ([], seen)
  | fuel + 1, n :: ns, seen =>
    if n.target_name ∈ seen then formatRulesList fuel ns seen
    else
      let rule : FormatRule :=
        ⟨n.target_name, dedupNames (n.dependencies.map MakeNode.target_name), n.command⟩
      let r1 := formatRulesList fuel n.dependencies (n.target_name :: seen)
      let r2 := formatRulesList fuel ns r1.2
      (rule :: (r1.1 ++ r2.1), r2.2)

/-- Rendering of one rule block, the dedented interpolation of the
source. -/
def renderRule (r : FormatRule) : String :=
  "\n#.PHONY: " ++ r.target_name ++ "\n" ++ r.target_name ++ ": "
    ++ String.intercalate " " r.dependency_names ++ "\n" ++ r.command ++ "\n"

/-- MakeNode.format as the plain text the command prints: the emitted rule
blocks rendered and concatenated. -/
def MakeNode.format (fuel : Nat) (n : MakeNode) (seen : List String) : String :=
  String.join (((formatRulesList fuel [n] seen).1).map renderRule)

/-- Top of the build plan written by the to-makefile command: the target
all, depending on the subtree of every child of ROOT (graph.py lines
374-378). -/
def makefileTop (g : DependencyGraph) (fuel : Nat) : MakeNode :=
  MakeNode.mk "all" none none ""
    (g.get_root_node.children.map
      (fun edge => MakeNode.from_graph_node g fuel (g.findNode edge.destination_key)))

/-! ## Concrete inputs used by the example parts of the claims -/

/-- Version literal helper. -/
def ver (a b : Nat) : Version := ⟨a, b⟩

/-- Example graph: A and B are toplevel, A requires x pinned to 1.0, B
requires x pinned to 2.0. -/
def gPinsConflict : DependencyGraph :=
  ((((DependencyGraph.empty.add_dependency none ReqType.toplevel (ver 1 0)
      ⟨"a", Specifier.eq (ver 1 0)⟩).add_dependency
      none ReqType.toplevel (ver 1 0) ⟨"b", Specifier.eq (ver 1 0)⟩).add_dependency
      (some ("a", ver 1 0)) ReqType.install (ver 1 0) ⟨"x", Specifier.eq (ver 1 0)⟩).add_dependency
      (some ("b", ver 1 0)) ReqType.install (ver 2 0) ⟨"x", Specifier.eq (ver 2 0)⟩)

/-- Example graph: A and B are toplevel, A requires x at least 1.0 resolved
to 2.0, B requires x pinned to 1.5 resolved to 1.5. -/
def gRangeOverlap : DependencyGraph :=
  ((((DependencyGraph.empty.add_dependency none ReqType.toplevel (ver 1 0)
      ⟨"a", Specifier.eq (ver 1 0)⟩).add_dependency
      none ReqType.toplevel (ver 1 0) ⟨"b", Specifier.eq (ver 1 0)⟩).add_dependency
      (some ("a", ver 1 0)) ReqType.install (ver 2 0) ⟨"x", Specifier.ge (ver 1 0)⟩).add_dependency
      (some ("b", ver 1 0)) ReqType.install (ver 1 5) ⟨"x", Specifier.eq (ver 1 5)⟩)

/-- Example graph for the build-plan export: p has a single child q reached
through a build-backend edge. -/
def gBuildBackendChild : DependencyGraph :=
  (DependencyGraph.empty.add_dependency none ReqType.toplevel (ver 1 0)
      ⟨"p", Specifier.eq (ver 1 0)⟩).add_dependency
    (some ("p", ver 1 0)) ReqType.buildBackend (ver 1 0) ⟨"q", Specifier.ge (ver 0 0)⟩

/-- Example diamond graph: A and B are toplevel and both require C. -/
def gDiamond : DependencyGraph :=
  ((((DependencyGraph.empty.add_dependency none ReqType.toplevel (ver 1 0)
      ⟨"a", Specifier.eq (ver 1 0)⟩).add_dependency
      none ReqType.toplevel (ver 1 0) ⟨"b", Specifier.eq (ver 1 0)⟩).add_dependency
      (some ("a", ver 1 0)) ReqType.install (ver 1 0) ⟨"c", Specifier.eq (ver 1 0)⟩).add_dependency
      (some ("b", ver 1 0)) ReqType.install (ver 1 0) ⟨"c", Specifier.eq (ver 1 0)⟩)

/-- Example legacy graph: the chain from ROOT to a==1.0 to b==2.0 and back
to a==1.0. -/
def legacyChain : LegacyGraph :=
  [(Key.root, [⟨ReqType.toplevel, "a", ver 1 0, ⟨"a", Specifier.eq (ver 1 0)⟩⟩]),
   (Key.pkg "a" (ver 1 0), [⟨ReqType.install, "b", ver 2 0, ⟨"b", Specifier.eq (ver 2 0)⟩⟩]),
   (Key.pkg "b" (ver 2 0), [⟨ReqType.install, "a", ver 1 0, ⟨"a", Specifier.eq (ver 1 0)⟩⟩])]

/-- The chain legacy graph extended with an entry under a key no chain of
adjacency tuples from ROOT reaches. -/
def legacyChainJunk : LegacyGraph :=
  legacyChain ++
    [(Key.pkg "z" (ver 9 0), [⟨ReqType.install, "w", ver 1 0, ⟨"w", Specifier.ge (ver 0 0)⟩⟩])]

/-- Example graph holding only one package a. -/
def gOnlyA : DependencyGraph :=
  DependencyGraph.empty.add_dependency none ReqType.toplevel (ver 1 0)
    ⟨"a", Specifier.eq (ver 1 0)⟩

/-- Example chain graph for provenance queries: a is toplevel, a requires
b, b requires c, all install edges. -/
def gChain3 : DependencyGraph :=
  ((DependencyGraph.empty.add_dependency none ReqType.toplevel (ver 1 0)
      ⟨"a", Specifier.eq (ver 1 0)⟩).add_dependency
      (some ("a", ver 1 0)) ReqType.install (ver 1 0) ⟨"b", Specifier.eq (ver 1 0)⟩).add_dependency
    (some ("b", ver 1 0)) ReqType.install (ver 1 0) ⟨"c", Specifier.eq (ver 1 0)⟩

/-- Example node: one version of x whose single consumer a declares the
dependency twice under two different specifiers, so the edges fall into two
requirement groups. -/
def xDoubleReqNode : DependencyNode :=
  ⟨Key.pkg "x" (ver 1 0), "x", some (ver 1 0), [],
    [⟨ReqType.install, ⟨"x", Specifier.eq (ver 1 0)⟩, Key.pkg "a" (ver 1 0)⟩,
     ⟨ReqType.install, ⟨"x", Specifier.ge (ver 1 0)⟩, Key.pkg "a" (ver 1 0)⟩]⟩

/-- Claim C3 read with the edge classes the spec defines: the build stage
holds exactly the children reached through build-type edges (the pure
build-time types build, build-system and build-backend) and is present only
when that set is non-empty; the wheel stage is always present and carries
the build command; the install stage holds the children reached through
install-type edges and is present only when that set is non-empty. -/
def C3StageClaim (g : DependencyGraph) (fuel : Nat) (node : DependencyNode) : Prop :=
  (MakeNode.from_graph_node g (fuel + 1) node).dependencies =
    (if (node.children.filter (fun e => e.req_type.is_build_type)) = [] then [] else
      [MakeNode.mk (graphTargetName node ++ "__build") none none ""
        ((node.children.filter (fun e => e.req_type.is_build_type)).map
          (fun e => MakeNode.from_graph_node g fuel (g.findNode e.destination_key)))]) ++
    [MakeNode.mk (graphTargetName node ++ "__wheel") (some node.canonicalized_name)
      node.version (wheelCommand node) []] ++
    (if (node.children.filter (fun e => e.req_type.is_install_requirement)) = [] then [] else
      [MakeNode.mk (graphTargetName node ++ "__install") none none ""
        ((node.children.filter (fun e => e.req_type.is_install_requirement)).map
          (fun e => MakeNode.from_graph_node g fuel (g.findNode e.destination_key)))])

/-! ## Characterization of the find_why loop -/

/-- The loop of find_why, folded over any suffix of the parents list,
computes the conjunction of the skip conditions, the disjunction of the
ROOT tests, and the concatenation of the per-edge contributions. -/
theorem whyFold_eq (md : Int) (depth : Nat) (rt : List ReqType) (nodeKey : Key)
    (recur : Edge → List WhyEvent) (ps : List Edge) :
    ∀ (a t : Bool) (out : List WhyEvent),
      ps.foldl (whyStep md depth rt nodeKey recur) (a, t, out) =
        (a && decide (∀ p ∈ ps, whySkipped rt p),
         t || decide (∃ p ∈ ps, p.destination_key = Key.root),
         out ++ ps.flatMap (fun parent =>
           if parent.destination_key = Key.root then [WhyEvent.toplevel nodeKey]
           else if rt ≠ [] ∧ parent.req_type ∉ rt then []
           else WhyEvent.dep depth parent.req_type parent.destination_key parent.req ::
             (if md ≠ 0 ∧ (md = -1 ∨ (depth : Int) ≤ md) then recur parent else []))) := by
  induction ps with
  | nil => intro a t out; simp
  | cons p ps ih =>
    intro a t out
    rw [List.foldl_cons, List.flatMap_cons]
    by_cases hr : p.destination_key = Key.root
    · rw [show whyStep md depth rt nodeKey recur (a, t, out) p =
          (a, true, out ++ [WhyEvent.toplevel nodeKey]) by simp [whyStep, hr]]
      rw [ih]
      have hs : whySkipped rt p := Or.inl hr
      simp [List.forall_mem_cons, List.exists_mem_cons, hr, hs]
    · by_cases hf : rt ≠ [] ∧ p.req_type ∉ rt
      · rw [show whyStep md depth rt nodeKey recur (a, t, out) p = (a, t, out) by
          simp only [whyStep, if_neg hr, if_pos hf]]
        rw [ih]
        have hs : whySkipped rt p := Or.inr hf
        rw [if_neg hr, if_pos hf]
        simp [List.forall_mem_cons, List.exists_mem_cons, hr, hs]
      · rw [show whyStep md depth rt nodeKey recur (a, t, out) p =
            (false, t,
              (out ++ (WhyEvent.dep depth p.req_type p.destination_key p.req ::
                (if md ≠ 0 ∧ (md = -1 ∨ (depth : Int) ≤ md) then recur p else []))))
            by
              by_cases hd : md ≠ 0 ∧ (md = -1 ∨ (depth : Int) ≤ md)
              · simp only [whyStep, if_neg hr, if_neg hf, if_pos hd, List.append_assoc,
                  List.singleton_append]
              · simp only [whyStep, if_neg hr, if_neg hf, if_neg hd, List.append_assoc,
                  List.singleton_append]]
        rw [ih]
        have hs : ¬ whySkipped rt p := by
          intro h; rcases h with h | h
          · exact hr h
          · exact hf h
        rw [if_neg hr, if_neg hf]
        simp [List.forall_mem_cons, List.exists_mem_cons, hr, hs, List.append_assoc]

/-- Unfolding of one level of find_why: each parent edge contributes its
report lines in order (ROOT parents a toplevel line and no descent,
filter-excluded edges nothing, surviving edges a relationship line followed
by the recursion with the filter cleared), and the missing-path line closes
the output exactly when every edge was skipped and none led to ROOT. -/
theorem find_why_succ (g : DependencyGraph) (fuel : Nat) (node : DependencyNode)
    (md : Int) (depth : Nat) (rt : List ReqType) :
    find_why g (fuel + 1) node md depth rt =
      node.parents.flatMap (fun parent =>
        if parent.destination_key = Key.root then [WhyEvent.toplevel node.key]
        else if rt ≠ [] ∧ parent.req_type ∉ rt then []
        else WhyEvent.dep depth parent.req_type parent.destination_key parent.req ::
          (if md ≠ 0 ∧ (md = -1 ∨ (depth : Int) ≤ md) then
            find_why g fuel (g.findNode parent.destination_key) md (depth + 1) []
          else [])) ++
      (if (∀ p ∈ node.parents, whySkipped rt p) ∧
          ¬ (∃ p ∈ node.parents, p.destination_key = Key.root) then
        [WhyEvent.notFound node.canonicalized_name rt]
      else []) := by
  have hunfold : find_why g (fuel + 1) node md depth rt =
      (if (node.parents.foldl
            (whyStep md depth rt node.key
              (fun parent =>
                find_why g fuel (g.findNode parent.destination_key) md (depth + 1) []))
            (true, false, ([] : List WhyEvent))).1 &&
          !(node.parents.foldl
            (whyStep md depth rt node.key
              (fun parent =>
                find_why g fuel (g.findNode parent.destination_key) md (depth + 1) []))
            (true, false, ([] : List WhyEvent))).2.1 then
        (node.parents.foldl
            (whyStep md depth rt node.key
              (fun parent =>
                find_why g fuel (g.findNode parent.destination_key) md (depth + 1) []))
            (true, false, ([] : List WhyEvent))).2.2 ++
          [WhyEvent.notFound node.canonicalized_name rt]
      else
        (node.parents.foldl
            (whyStep md depth rt node.key
              (fun parent =>
                find_why g fuel (g.findNode parent.destination_key) md (depth + 1) []))
            (true, false, ([] : List WhyEvent))).2.2) := rfl
  rw [hunfold, whyFold_eq]
  by_cases hA : ∀ p ∈ node.parents, whySkipped rt p
  · by_cases hB : ∃ p ∈ node.parents, p.destination_key = Key.root
    · simp [hA, hB]
    · simp [hB, decide_eq_true hA]
      rw [if_pos hA]
  · by_cases hB : ∃ p ∈ node.parents, p.destination_key = Key.root <;> simp [hA, hB]

/-- A pointwise-constant singleton contribution turns a flatMap into a
map. -/
theorem flatMap_singleton_of_forall {α β : Type} (l : List α) (f : α → List β) (b : β)
    (h : ∀ x ∈ l, f x = [b]) : l.flatMap f = l.map (fun _ => b) := by
  induction l with
  | nil => simp
  | cons x xs ih =>
    rw [List.flatMap_cons, List.map_cons, h x (List.mem_cons_self x xs),
      ih (fun y hy => h y (List.mem_cons_of_mem x hy))]
    rfl

/-- With a positive depth budget, every dependency line of find_why sits at
an indentation depth below the starting depth and the budget plus one. -/
theorem find_why_depth_bound (g : DependencyGraph) :
    ∀ (fuel : Nat) (node : DependencyNode) (md : Int) (depth : Nat) (rt : List ReqType),
      0 < md → ∀ ev ∈ find_why g fuel node md depth rt,
        (ev.depthOf : Int) ≤ max (depth : Int) (md + 1) := by
  intro fuel
  induction fuel with
  | zero =>
    intro node md depth rt _ ev hev
    simp [find_why] at hev
  | succ fuel ih =>
    intro node md depth rt hmd ev hev
    rw [find_why_succ] at hev
    have hdep : (0 : Int) ≤ (depth : Int) := Int.ofNat_nonneg depth
    rcases List.mem_append.mp hev with hev | hev
    · rcases List.mem_flatMap.mp hev with ⟨p, _, hp⟩
      by_cases hr : p.destination_key = Key.root
      · rw [if_pos hr] at hp
        rcases List.mem_singleton.mp hp with rfl
        calc ((WhyEvent.toplevel node.key).depthOf : Int) = 0 := rfl
          _ ≤ (depth : Int) := hdep
          _ ≤ max (depth : Int) (md + 1) := le_max_left _ _
      · rw [if_neg hr] at hp
        by_cases hf : rt ≠ [] ∧ p.req_type ∉ rt
        · rw [if_pos hf] at hp
          simp at hp
        · rw [if_neg hf] at hp
          rcases List.mem_cons.mp hp with rfl | hp
          · calc ((WhyEvent.dep depth p.req_type p.destination_key p.req).depthOf : Int)
                = (depth : Int) := rfl
              _ ≤ max (depth : Int) (md + 1) := le_max_left _ _
          · by_cases hc : md ≠ 0 ∧ (md = -1 ∨ (depth : Int) ≤ md)
            · rw [if_pos hc] at hp
              have hb := ih (g.findNode p.destination_key) md (depth + 1) [] hmd ev hp
              have hdm : (depth : Int) ≤ md := by
                rcases hc.2 with h | h
                · omega
                · exact h
              have : max ((depth + 1 : Nat) : Int) (md + 1) = md + 1 := by
                apply max_eq_right
                push_cast
                omega
              rw [this] at hb
              exact le_trans hb (le_max_right _ _)
            · rw [if_neg hc] at hp
              simp at hp
    · have hcond := hev
      by_cases hc : (∀ p ∈ node.parents, whySkipped rt p) ∧
          ¬ (∃ p ∈ node.parents, p.destination_key = Key.root)
      · rw [if_pos hc] at hcond
        rcases List.mem_singleton.mp hcond with rfl
        calc ((WhyEvent.notFound node.canonicalized_name rt).depthOf : Int) = 0 := rfl
          _ ≤ (depth : Int) := hdep
          _ ≤ max (depth : Int) (md + 1) := le_max_left _ _
      · rw [if_neg hc] at hcond
        simp at hcond

/-- C4: when a requirement-type filter is supplied it is applied only to
the first hop: a filtered-out incoming edge is skipped entirely,
contributing no report line and not counting as a found path, while every
recursive call into a surviving parent passes an empty filter, so ancestors
above the first hop are always shown regardless of their edge types. -/
theorem C4_filter_first_hop_only (g : DependencyGraph) (fuel : Nat)
    (node : DependencyNode) (md : Int) (depth : Nat) (rt : List ReqType) :
    find_why g (fuel + 1) node md depth rt =
      node.parents.flatMap (fun parent =>
        if parent.destination_key = Key.root then [WhyEvent.toplevel node.key]
        else if rt ≠ [] ∧ parent.req_type ∉ rt then []
        else WhyEvent.dep depth parent.req_type parent.destination_key parent.req ::
          (if md ≠ 0 ∧ (md = -1 ∨ (depth : Int) ≤ md) then
            find_why g fuel (g.findNode parent.destination_key) md (depth + 1) []
          else [])) ++
      (if (∀ p ∈ node.parents, whySkipped rt p) ∧
          ¬ (∃ p ∈ node.parents, p.destination_key = Key.root) then
        [WhyEvent.notFound node.canonicalized_name rt]
      else []) :=
  find_why_succ g fuel node md depth rt

/-- C5: with max_depth zero, find_why reports only the direct parents and
never recurses; with max_depth minus one it recurses into every surviving
parent at every depth, stopping only at ROOT branches; with a positive
budget N every dependency line sits at depth at most N plus one, so
recursion is bounded to N levels; on the concrete chain graph the unlimited
query walks to the toplevel report and the zero query stops at the direct
parent. -/
theorem C5_depth_budget (g : DependencyGraph) (fuel : Nat)
    (node : DependencyNode) (depth : Nat) (rt : List ReqType) :
    (find_why g (fuel + 1) node 0 depth rt =
      node.parents.flatMap (fun parent =>
        if parent.destination_key = Key.root then [WhyEvent.toplevel node.key]
        else if rt ≠ [] ∧ parent.req_type ∉ rt then []
        else [WhyEvent.dep depth parent.req_type parent.destination_key parent.req]) ++
      (if (∀ p ∈ node.parents, whySkipped rt p) ∧
          ¬ (∃ p ∈ node.parents, p.destination_key = Key.root) then
        [WhyEvent.notFound node.canonicalized_name rt]
      else [])) ∧
    (find_why g (fuel + 1) node (-1) depth rt =
      node.parents.flatMap (fun parent =>
        if parent.destination_key = Key.root then [WhyEvent.toplevel node.key]
        else if rt ≠ [] ∧ parent.req_type ∉ rt then []
        else WhyEvent.dep depth parent.req_type parent.destination_key parent.req ::
          find_why g fuel (g.findNode parent.destination_key) (-1) (depth + 1) []) ++
      (if (∀ p ∈ node.parents, whySkipped rt p) ∧
          ¬ (∃ p ∈ node.parents, p.destination_key = Key.root) then
        [WhyEvent.notFound node.canonicalized_name rt]
      else [])) ∧
    (∀ (md : Int), 0 < md → ∀ ev ∈ find_why g fuel node md depth rt,
      (ev.depthOf : Int) ≤ max (depth : Int) (md + 1)) ∧
    (find_why gChain3 5 (gChain3.findNode (Key.pkg "c" (ver 1 0))) (-1) 1 [] =
      [WhyEvent.dep 1 ReqType.install (Key.pkg "b" (ver 1 0)) ⟨"c", Specifier.eq (ver 1 0)⟩,
       WhyEvent.dep 2 ReqType.install (Key.pkg "a" (ver 1 0)) ⟨"b", Specifier.eq (ver 1 0)⟩,
       WhyEvent.toplevel (Key.pkg "a" (ver 1 0))]) ∧
    (find_why gChain3 5 (gChain3.findNode (Key.pkg "c" (ver 1 0))) 0 1 [] =
      [WhyEvent.dep 1 ReqType.install (Key.pkg "b" (ver 1 0)) ⟨"c", Specifier.eq (ver 1 0)⟩]) := by
  refine ⟨?_, ?_, ?_, by decide, by decide⟩
  · rw [find_why_succ]
    have hfl := List.flatMap_congr (l := node.parents)
      (f := fun parent =>
        if parent.destination_key = Key.root then [WhyEvent.toplevel node.key]
        else if rt ≠ [] ∧ parent.req_type ∉ rt then []
        else WhyEvent.dep depth parent.req_type parent.destination_key parent.req ::
          (if (0 : Int) ≠ 0 ∧ ((0 : Int) = -1 ∨ (depth : Int) ≤ 0) then
            find_why g fuel (g.findNode parent.destination_key) 0 (depth + 1) []
          else []))
      (g := fun parent =>
        if parent.destination_key = Key.root then [WhyEvent.toplevel node.key]
        else if rt ≠ [] ∧ parent.req_type ∉ rt then []
        else [WhyEvent.dep depth parent.req_type parent.destination_key parent.req])
      (by
        intro p _
        by_cases hr : p.destination_key = Key.root
        · simp [hr]
        · by_cases hf : rt ≠ [] ∧ p.req_type ∉ rt
          · simp [hr, hf]
          · simp [hr, hf])
    rw [hfl]
  · rw [find_why_succ]
    have hfl := List.flatMap_congr (l := node.parents)
      (f := fun parent =>
        if parent.destination_key = Key.root then [WhyEvent.toplevel node.key]
        else if rt ≠ [] ∧ parent.req_type ∉ rt then []
        else WhyEvent.dep depth parent.req_type parent.destination_key parent.req ::
          (if (-1 : Int) ≠ 0 ∧ ((-1 : Int) = -1 ∨ (depth : Int) ≤ -1) then
            find_why g fuel (g.findNode parent.destination_key) (-1) (depth + 1) []
          else []))
      (g := fun parent =>
        if parent.destination_key = Key.root then [WhyEvent.toplevel node.key]
        else if rt ≠ [] ∧ parent.req_type ∉ rt then []
        else WhyEvent.dep depth parent.req_type parent.destination_key parent.req ::
          find_why g fuel (g.findNode parent.destination_key) (-1) (depth + 1) [])
      (by
        intro p _
        by_cases hr : p.destination_key = Key.root
        · simp [hr]
        · by_cases hf : rt ≠ [] ∧ p.req_type ∉ rt
          · simp [hr, hf]
          · simp [hr, hf])
    rw [hfl]
  · intro md hmd ev hev
    exact find_why_depth_bound g fuel node md depth rt hmd ev hev

/-- Witness of C5 at a concrete input: on the chain graph with budget one,
the dependency line of the second hop sits at depth two, within the
budget-plus-one bound. -/
theorem C5_depth_budget_witness :
    ((WhyEvent.dep 2 ReqType.install (Key.pkg "a" (ver 1 0))
        ⟨"b", Specifier.eq (ver 1 0)⟩).depthOf : Int) ≤ max ((1 : Nat) : Int) ((1 : Int) + 1) :=
  (C5_depth_budget gChain3 5 (gChain3.findNode (Key.pkg "c" (ver 1 0))) 1 []).2.2.1 1
    (by decide)
    (WhyEvent.dep 2 ReqType.install (Key.pkg "a" (ver 1 0)) ⟨"b", Specifier.eq (ver 1 0)⟩)
    (by decide)

/-- C8: whenever any incoming edge of a node has ROOT as its parent,
wherever it sits among the other parent edges, find_why reports the node
as a toplevel dependency at the position of that edge and does not descend
that branch, and the missing-path line is suppressed since the node is
toplevel; and when no non-root parent edge survives the requirement-type
filter and the node is not toplevel, find_why reports that no matching
provenance path was found. -/
theorem C8_root_edge_and_filtered_cases (g : DependencyGraph) (fuel : Nat)
    (node : DependencyNode) (md : Int) (depth : Nat) (rt : List ReqType) :
    (∀ (l₁ l₂ : List Edge) (p : Edge),
      node.parents = l₁ ++ p :: l₂ → p.destination_key = Key.root →
      find_why g (fuel + 1) node md depth rt =
        l₁.flatMap (fun parent =>
          if parent.destination_key = Key.root then [WhyEvent.toplevel node.key]
          else if rt ≠ [] ∧ parent.req_type ∉ rt then []
          else WhyEvent.dep depth parent.req_type parent.destination_key parent.req ::
            (if md ≠ 0 ∧ (md = -1 ∨ (depth : Int) ≤ md) then
              find_why g fuel (g.findNode parent.destination_key) md (depth + 1) []
            else [])) ++
        ([WhyEvent.toplevel node.key] ++
          l₂.flatMap (fun parent =>
            if parent.destination_key = Key.root then [WhyEvent.toplevel node.key]
            else if rt ≠ [] ∧ parent.req_type ∉ rt then []
            else WhyEvent.dep depth parent.req_type parent.destination_key parent.req ::
              (if md ≠ 0 ∧ (md = -1 ∨ (depth : Int) ≤ md) then
                find_why g fuel (g.findNode parent.destination_key) md (depth + 1) []
              else [])))) ∧
    ((∀ p ∈ node.parents, p.destination_key ≠ Key.root ∧ rt ≠ [] ∧ p.req_type ∉ rt) →
      find_why g (fuel + 1) node md depth rt =
        [WhyEvent.notFound node.canonicalized_name rt]) := by
  constructor
  · intro l₁ l₂ p hsplit hroot
    rw [find_why_succ, hsplit]
    rw [List.flatMap_append, List.flatMap_cons, if_pos hroot]
    have hnc : ¬ ((∀ q ∈ l₁ ++ p :: l₂, whySkipped rt q) ∧
        ¬ (∃ q ∈ l₁ ++ p :: l₂, q.destination_key = Key.root)) := by
      intro hcond
      exact hcond.2 ⟨p, List.mem_append.mpr (Or.inr (List.mem_cons_self p l₂)), hroot⟩
    rw [if_neg hnc, List.append_nil]
  · intro hall
    rw [find_why_succ]
    have hfl : (node.parents.flatMap (fun parent =>
        if parent.destination_key = Key.root then [WhyEvent.toplevel node.key]
        else if rt ≠ [] ∧ parent.req_type ∉ rt then []
        else WhyEvent.dep depth parent.req_type parent.destination_key parent.req ::
          (if md ≠ 0 ∧ (md = -1 ∨ (depth : Int) ≤ md) then
            find_why g fuel (g.findNode parent.destination_key) md (depth + 1) []
          else []))) = [] := by
      rw [List.flatMap_eq_nil_iff]
      intro p hp
      rw [if_neg (hall p hp).1, if_pos (hall p hp).2]
    rw [hfl, if_pos, List.nil_append]
    refine ⟨fun p hp => Or.inr (hall p hp).2, ?_⟩
    rintro ⟨p, hp, hroot⟩
    exact (hall p hp).1 hroot

/-- Witness of C8 at a concrete input: in the chain graph the node a has
ROOT among its parents and is reported as a toplevel dependency with no
descent through that edge. -/
theorem C8_root_edge_and_filtered_witness :
    find_why gChain3 (4 + 1) (gChain3.findNode (Key.pkg "a" (ver 1 0))) (-1) 1 [] =
      [WhyEvent.toplevel (gChain3.findNode (Key.pkg "a" (ver 1 0))).key] := by
  have h := (C8_root_edge_and_filtered_cases gChain3 4
      (gChain3.findNode (Key.pkg "a" (ver 1 0))) (-1) 1 []).1 [] []
      ⟨ReqType.toplevel, ⟨"a", Specifier.eq (ver 1 0)⟩, Key.root⟩
      (by decide) (by decide)
  simpa using h

/-- C9: the why command with a package name and optional version filter
matching zero nodes produces no output at all: whether the name matches no
node or the version filter discards every candidate, the node list is
empty, the reporting loop body never runs, and the user receives no report
of the missing package, although no index error occurs either since
nothing is indexed.  The code therefore exits silently instead of
reporting the absence clearly. -/
theorem C9_zero_matches_silent (g : DependencyGraph) (fuel : Nat)
    (package_name : String) (version : List Version) (depth : Int)
    (requirement_type : List ReqType)
    (h : (if version = [] then g.get_nodes_by_name package_name
        else (g.get_nodes_by_name package_name).filter
          (fun n => match n.version with
            | some v => decide (v ∈ version)
            | none => false)) = []) :
    whyCmd g fuel package_name version depth requirement_type = [] := by
  have hw : whyCmd g fuel package_name version depth requirement_type =
      (if version = [] then g.get_nodes_by_name package_name
        else (g.get_nodes_by_name package_name).filter
          (fun n => match n.version with
            | some v => decide (v ∈ version)
            | none => false)).map
        (fun n => (n.key, find_why g fuel n depth 1 requirement_type)) := rfl
  rw [hw, h]
  rfl

/-- Witness of C9 at the failing input: querying a graph holding only the
package a for the absent name missing yields no matched node and no output
line. -/
theorem C9_zero_matches_silent_witness :
    whyCmd gOnlyA 5 "missing" [] 0 [] = [] :=
  C9_zero_matches_silent gOnlyA 5 "missing" [] 0 [] (by decide)

/-! ## Build-plan stage synthesis -/

/-- The children loop of from_graph_node splits the child subtrees by the
test of the edge type against build: the build accumulator collects exactly
the children of edges typed build, the install accumulator all others, in
order. -/
theorem stagesFold_eq (g : DependencyGraph) (fuel : Nat) (ch : List Edge) :
    ∀ (acc : List MakeNode × List MakeNode),
      ch.foldl
        (fun acc child_edge =>
          let child := MakeNode.from_graph_node g fuel (g.findNode child_edge.destination_key)
          if child_edge.req_type = ReqType.build then (acc.1 ++ [child], acc.2)
          else (acc.1, acc.2 ++ [child]))
        acc =
      (acc.1 ++ (ch.filter (fun e => e.req_type = ReqType.build)).map
          (fun e => MakeNode.from_graph_node g fuel (g.findNode e.destination_key)),
       acc.2 ++ (ch.filter (fun e => ¬ e.req_type = ReqType.build)).map
          (fun e => MakeNode.from_graph_node g fuel (g.findNode e.destination_key))) := by
  induction ch with
  | nil => intro acc; simp
  | cons e es ih =>
    intro acc
    rw [List.foldl_cons]
    by_cases he : e.req_type = ReqType.build
    · rw [show (let child := MakeNode.from_graph_node g fuel (g.findNode e.destination_key)
          if e.req_type = ReqType.build then (acc.1 ++ [child], acc.2)
          else (acc.1, acc.2 ++ [child])) =
          (acc.1 ++ [MakeNode.from_graph_node g fuel (g.findNode e.destination_key)], acc.2) by
        simp only [if_pos he]]
      rw [ih]
      simp [he, List.append_assoc]
    · rw [show (let child := MakeNode.from_graph_node g fuel (g.findNode e.destination_key)
          if e.req_type = ReqType.build then (acc.1 ++ [child], acc.2)
          else (acc.1, acc.2 ++ [child])) =
          (acc.1, acc.2 ++ [MakeNode.from_graph_node g fuel (g.findNode e.destination_key)]) by
        simp only [if_neg he]]
      rw [ih]
      simp [he, List.append_assoc]

/-- C3 counterexample: for the node p whose single child q is reached
through a build-backend edge, the synthesized stages contradict the claim:
the code tests the edge type against build only, so the build-backend child
lands in the install stage and no build stage appears, while the claim
places every build-type child in the build stage and leaves the install
stage empty and absent. -/
theorem C3_stage_claim_false :
    ¬ C3StageClaim gBuildBackendChild 0
      (gBuildBackendChild.findNode (Key.pkg "p" (ver 1 0))) := by
  intro h
  unfold C3StageClaim at h
  exact absurd (congrArg (List.map MakeNode.target_name) h) (by decide)

/-- C3 as amended: the build stage holds exactly the children reached
through edges whose type is exactly build and is attached only when
non-empty; the wheel stage is always present and carries the build command
for the name and version of the node; the install stage holds the children
reached through every other edge type (install, toplevel, build-system and
build-backend alike) and is attached only when non-empty. -/
theorem C3_stages_amended (g : DependencyGraph) (fuel : Nat) (node : DependencyNode) :
    MakeNode.from_graph_node g (fuel + 1) node =
      MakeNode.mk (graphTargetName node) none none ""
        ((if (node.children.filter (fun e => e.req_type = ReqType.build)) = [] then [] else
          [MakeNode.mk (graphTargetName node ++ "__build") none none ""
            ((node.children.filter (fun e => e.req_type = ReqType.build)).map
              (fun e => MakeNode.from_graph_node g fuel (g.findNode e.destination_key)))]) ++
        [MakeNode.mk (graphTargetName node ++ "__wheel") (some node.canonicalized_name)
          node.version (wheelCommand node) []] ++
        (if (node.children.filter (fun e => ¬ e.req_type = ReqType.build)) = [] then [] else
          [MakeNode.mk (graphTargetName node ++ "__install") none none ""
            ((node.children.filter (fun e => ¬ e.req_type = ReqType.build)).map
              (fun e => MakeNode.from_graph_node g fuel (g.findNode e.destination_key)))])) := by
  have hunfold : MakeNode.from_graph_node g (fuel + 1) node =
      MakeNode.mk (graphTargetName node) none none ""
        ((if (node.children.foldl
            (fun acc child_edge =>
              let child :=
                MakeNode.from_graph_node g fuel (g.findNode child_edge.destination_key)
              if child_edge.req_type = ReqType.build then (acc.1 ++ [child], acc.2)
              else (acc.1, acc.2 ++ [child]))
            ([], [])).1.isEmpty then [] else
          [MakeNode.mk (graphTargetName node ++ "__build") none none ""
            (node.children.foldl
              (fun acc child_edge =>
                let child :=
                  MakeNode.from_graph_node g fuel (g.findNode child_edge.destination_key)
                if child_edge.req_type = ReqType.build then (acc.1 ++ [child], acc.2)
                else (acc.1, acc.2 ++ [child]))
              ([], [])).1]) ++
        [MakeNode.mk (graphTargetName node ++ "__wheel") (some node.canonicalized_name)
          node.version (wheelCommand node) []] ++
        (if (node.children.foldl
            (fun acc child_edge =>
              let child :=
                MakeNode.from_graph_node g fuel (g.findNode child_edge.destination_key)
              if child_edge.req_type = ReqType.build then (acc.1 ++ [child], acc.2)
              else (acc.1, acc.2 ++ [child]))
            ([], [])).2.isEmpty then [] else
          [MakeNode.mk (graphTargetName node ++ "__install") none none ""
            (node.children.foldl
              (fun acc child_edge =>
                let child :=
                  MakeNode.from_graph_node g fuel (g.findNode child_edge.destination_key)
                if child_edge.req_type = ReqType.build then (acc.1 ++ [child], acc.2)
                else (acc.1, acc.2 ++ [child]))
              ([], [])).2])) := rfl
  rw [hunfold, stagesFold_eq]
  by_cases hb : (node.children.filter (fun e => e.req_type = ReqType.build)) = [] <;>
    by_cases hi : (node.children.filter (fun e => ¬ e.req_type = ReqType.build)) = [] <;>
      simp [hb, hi]

/-- C6: with x pinned to different versions by a and b and no specifier
accepting both, explain_duplicates lists both versions in ascending order,
filters each specifier over the entire version set, and concludes that no
single version satisfies all consumers; with x at least one by a resolved
to version two and x pinned to one point five by b, the specifier of a
accepts both versions in use and version one point five is reported usable
by all consumers. -/
theorem C6_duplicate_scenarios :
    ((explain_duplicates gPinsConflict 50).map
        (fun r => (r.dep_name, r.reports.map Prod.fst, r.verdict)) =
      [("x", [ver 1 0, ver 2 0], none)]) ∧
    ((explain_duplicates gPinsConflict 50).map
        (fun r => r.reports.map (fun p => p.2.map (fun gr => gr.match_versions))) =
      [[[[ver 1 0]], [[ver 2 0]]]]) ∧
    ((explain_duplicates gRangeOverlap 50).map
        (fun r => (r.dep_name, r.reports.map Prod.fst, r.verdict)) =
      [("x", [ver 1 5, ver 2 0], some (ver 1 5))]) ∧
    ((explain_duplicates gRangeOverlap 50).map
        (fun r => r.reports.map (fun p => p.2.map (fun gr => gr.match_versions))) =
      [[[[ver 1 5]], [[ver 2 0, ver 1 5]]]]) := by
  exact ⟨by decide, by decide, by decide, by decide⟩

/-! ## Accounting lemmas for the conflict-explanation fold -/

/-- Rewriting the entry of one key leaves lookups of other keys
untouched. -/
theorem lookupAssoc_extendMap_ne {α β : Type} [DecidableEq α]
    (k k' : α) (xs : List β) (hk : k' ≠ k) (a : List (α × List β)) :
    lookupAssoc (a.map (fun p => if p.1 = k then (p.1, p.2 ++ xs) else p)) k' =
      lookupAssoc a k' := by
  induction a with
  | nil => rfl
  | cons p ps ih =>
    rw [List.map_cons]
    by_cases hp : p.1 = k
    · have hq : ¬ p.1 = k' := by rw [hp]; exact fun hx => hk hx.symm
      rw [if_pos hp]
      unfold lookupAssoc
      rw [List.find?_cons, List.find?_cons]
      simp only [decide_eq_false hq]
      simpa [lookupAssoc] using ih
    · rw [if_neg hp]
      unfold lookupAssoc
      rw [List.find?_cons, List.find?_cons]
      by_cases hq : p.1 = k'
      · simp only [decide_eq_true hq]
      · simp only [decide_eq_false hq]
        simpa [lookupAssoc] using ih

/-- Extending the list stored under a key appends to that list. -/
theorem lookupAssoc_assocExtend_same {α β : Type} [DecidableEq α]
    (a : List (α × List β)) (k : α) (xs : List β) :
    lookupAssoc (assocExtend a k xs) k = lookupAssoc a k ++ xs := by
  unfold assocExtend
  by_cases h : hasKey a k
  · rw [if_pos h]
    induction a with
    | nil => simp [hasKey] at h
    | cons p ps ih =>
      rw [List.map_cons]
      by_cases hp : p.1 = k
      · rw [if_pos hp]
        unfold lookupAssoc
        rw [List.find?_cons, List.find?_cons]
        simp only [decide_eq_true hp]
        rfl
      · rw [if_neg hp]
        have hps : hasKey ps k = true := by
          simp only [hasKey, List.any_cons, decide_eq_true_eq, hp, decide_eq_false hp,
            Bool.false_or] at h ⊢
          exact h
        unfold lookupAssoc
        rw [List.find?_cons, List.find?_cons]
        simp only [decide_eq_false hp]
        simpa [lookupAssoc] using ih hps
  · rw [if_neg h]
    have hn : a.find? (fun p => decide (p.1 = k)) = none := by
      rw [List.find?_eq_none]
      intro p hp hcontra
      exact h (by
        simp only [hasKey, List.any_eq_true, decide_eq_true_eq]
        exact ⟨p, hp, by simpa using hcontra⟩)
    unfold lookupAssoc
    rw [List.find?_append, hn, Option.none_or, List.find?_cons]
    simp

/-- The assocExtend form of the previous lemma. -/
theorem lookupAssoc_assocExtend_ne {α β : Type} [DecidableEq α]
    (a : List (α × List β)) (k k' : α) (xs : List β) (hk : k' ≠ k) :
    lookupAssoc (assocExtend a k xs) k' = lookupAssoc a k' := by
  unfold assocExtend
  by_cases h : hasKey a k
  · rw [if_pos h]
    exact lookupAssoc_extendMap_ne k k' xs hk a
  · rw [if_neg h]
    unfold lookupAssoc
    rw [List.find?_append]
    cases hfa : a.find? (fun p => decide (p.1 = k')) with
    | some p => simp
    | none =>
      rw [Option.none_or, List.find?_cons]
      have hd : decide ((k, xs).1 = k') = false :=
        decide_eq_false (fun hx => hk hx.symm)
      simp [hd]

/-- The keys of an association list after assocExtend: unchanged when the
key was present, the key appended otherwise. -/
theorem keys_assocExtend {α β : Type} [DecidableEq α]
    (a : List (α × List β)) (k : α) (xs : List β) :
    (assocExtend a k xs).map Prod.fst =
      if hasKey a k then a.map Prod.fst else a.map Prod.fst ++ [k] := by
  unfold assocExtend
  by_cases h : hasKey a k
  · rw [if_pos h, if_pos h, List.map_map]
    apply List.map_congr_left
    intro p _
    by_cases hp : p.1 = k <;> simp [hp]
  · rw [if_neg h, if_neg h]
    simp

/-- Key presence matches membership of the key list. -/
theorem hasKey_iff_mem_keys {α β : Type} [DecidableEq α]
    (a : List (α × List β)) (k : α) :
    hasKey a k = true ↔ k ∈ a.map Prod.fst := by
  simp only [hasKey, List.any_eq_true, decide_eq_true_eq, List.mem_map]

/-- Key presence after assocExtend: the extended key joins the keys. -/
theorem hasKey_assocExtend {α β : Type} [DecidableEq α]
    (a : List (α × List β)) (k k' : α) (xs : List β) :
    hasKey (assocExtend a k xs) k' = (hasKey a k' || decide (k' = k)) := by
  rw [Bool.eq_iff_iff, hasKey_iff_mem_keys, keys_assocExtend]
  by_cases h : hasKey a k
  · rw [if_pos h]
    simp only [Bool.or_eq_true, decide_eq_true_eq, hasKey_iff_mem_keys]
    constructor
    · exact fun hx => Or.inl hx
    · rintro (hx | rfl)
      · exact hx
      · exact (hasKey_iff_mem_keys a k').mp h
  · rw [if_neg h]
    simp [hasKey_iff_mem_keys]

/-- assocExtend keeps the keys of an association list pairwise distinct. -/
theorem keysNodup_assocExtend {α β : Type} [DecidableEq α]
    (a : List (α × List β)) (k : α) (xs : List β)
    (h : (a.map Prod.fst).Nodup) : ((assocExtend a k xs).map Prod.fst).Nodup := by
  rw [keys_assocExtend]
  by_cases hk : hasKey a k
  · rwa [if_pos hk]
  · rw [if_neg hk]
    rw [List.nodup_append]
    refine ⟨h, List.nodup_singleton k, ?_⟩
    intro x hx hx'
    rcases List.mem_singleton.mp hx' with rfl
    exact hk ((hasKey_iff_mem_keys a x).mpr hx)

/-- In an association list with pairwise distinct keys, the stored list of
any member entry is what lookup returns for its key. -/
theorem mem_eq_lookupAssoc {α β : Type} [DecidableEq α] :
    ∀ (a : List (α × List β)), (a.map Prod.fst).Nodup →
      ∀ p ∈ a, lookupAssoc a p.1 = p.2 := by
  intro a
  induction a with
  | nil => intro _ p hp; simp at hp
  | cons q qs ih =>
    intro hnd p hp
    have hnd' : q.1 ∉ qs.map Prod.fst ∧ (qs.map Prod.fst).Nodup := by
      rw [List.map_cons] at hnd
      exact List.nodup_cons.mp hnd
    rcases List.mem_cons.mp hp with rfl | hp'
    · unfold lookupAssoc
      rw [List.find?_cons]
      simp
    · have hq : ¬ q.1 = p.1 := by
        intro hx
        exact hnd'.1 (hx ▸ List.mem_map_of_mem Prod.fst hp')
      unfold lookupAssoc
      rw [List.find?_cons]
      simp only [decide_eq_false hq]
      have := ih hnd'.2 p hp'
      simpa [lookupAssoc] using this

/-- Accumulating one requirement group over its matching versions: the
lookup of a version gains the parents of the group exactly when the version
matches. -/
theorem lookup_foldl_extend {α β : Type} [DecidableEq α] (ps : List β) (v : α) :
    ∀ (mvs : List α) (uv : List (α × List β)), mvs.Nodup →
      lookupAssoc (mvs.foldl (fun uv mv => assocExtend uv mv ps) uv) v =
        lookupAssoc uv v ++ (if v ∈ mvs then ps else []) := by
  intro mvs
  induction mvs with
  | nil => intro uv _; simp
  | cons mv mvs ih =>
    intro uv hnd
    rw [List.foldl_cons]
    rcases List.nodup_cons.mp hnd with ⟨hmv, hnd'⟩
    rw [ih (assocExtend uv mv ps) hnd']
    by_cases hv : v = mv
    · subst hv
      rw [lookupAssoc_assocExtend_same]
      have : v ∉ mvs := hmv
      simp [this, List.append_assoc]
    · rw [lookupAssoc_assocExtend_ne uv mv v ps hv]
      simp [List.mem_cons, hv]

/-- Key presence after accumulating one requirement group. -/
theorem hasKey_foldl_extend {α β : Type} [DecidableEq α] (ps : List β) (v : α) :
    ∀ (mvs : List α) (uv : List (α × List β)),
      hasKey (mvs.foldl (fun uv mv => assocExtend uv mv ps) uv) v =
        (hasKey uv v || decide (v ∈ mvs)) := by
  intro mvs
  induction mvs with
  | nil => intro uv; simp
  | cons mv mvs ih =>
    intro uv
    rw [List.foldl_cons, ih (assocExtend uv mv ps), hasKey_assocExtend]
    by_cases hv : v = mv <;> simp [List.mem_cons, hv, Bool.or_assoc]

/-- Distinct keys survive accumulating one requirement group. -/
theorem keysNodup_foldl_extend {α β : Type} [DecidableEq α] (ps : List β) :
    ∀ (mvs : List α) (uv : List (α × List β)),
      (uv.map Prod.fst).Nodup →
      (((mvs.foldl (fun uv mv => assocExtend uv mv ps) uv)).map Prod.fst).Nodup := by
  intro mvs
  induction mvs with
  | nil => intro uv h; exact h
  | cons mv mvs ih =>
    intro uv h
    rw [List.foldl_cons]
    exact ih (assocExtend uv mv ps) (keysNodup_assocExtend uv mv ps h)

/-- Length of a flatMap as the sum of the member lengths. -/
theorem length_flatMap_sum {α β : Type} (f : α → List β) :
    ∀ (l : List α), (l.flatMap f).length = (l.map (fun x => (f x).length)).sum := by
  intro l
  induction l with
  | nil => simp
  | cons x xs ih => simp [List.flatMap_cons, ih]

/-- The consumer counter after one node: it grows by the sum of the group
sizes, never deduplicated across groups. -/
theorem processGroups_counter (versions : List Version)
    (groups : List (Requirement × List Key)) :
    ∀ (acc : PackageAccum),
      (processGroups versions acc groups).user_counter =
        acc.user_counter + (groups.map (fun g => g.2.length)).sum := by
  induction groups with
  | nil => intro acc; simp [processGroups]
  | cons g gs ih =>
    intro acc
    unfold processGroups at ih ⊢
    rw [List.foldl_cons]
    rw [ih]
    simp [Nat.add_assoc]

/-- The acceptor list of a version after one node grows by the parents of
every group whose filtered match list holds the version. -/
theorem processGroups_lookup (versions : List Version)
    (hv : versions.Nodup) (groups : List (Requirement × List Key)) (v : Version) :
    ∀ (acc : PackageAccum),
      lookupAssoc (processGroups versions acc groups).usable_versions v =
        lookupAssoc acc.usable_versions v ++
          groups.flatMap (fun g =>
            if v ∈ versions.filter (fun w => g.1.specifier.accepts w) then g.2 else []) := by
  induction groups with
  | nil => intro acc; simp [processGroups]
  | cons g gs ih =>
    intro acc
    unfold processGroups at ih ⊢
    rw [List.foldl_cons, List.flatMap_cons]
    rw [ih]
    have hmnd : (versions.filter (fun w => g.1.specifier.accepts w)).Nodup :=
      List.Nodup.filter _ hv
    have hlk := lookup_foldl_extend g.2 v
      (versions.filter (fun w => g.1.specifier.accepts w)) acc.usable_versions hmnd
    simp only at hlk ⊢
    rw [hlk, List.append_assoc]

/-- A version is a key of the accumulator after one node exactly when it
was before or some group of the node accepts it. -/
theorem processGroups_hasKey (versions : List Version)
    (groups : List (Requirement × List Key)) (v : Version) :
    ∀ (acc : PackageAccum),
      hasKey (processGroups versions acc groups).usable_versions v = true ↔
        (hasKey acc.usable_versions v = true ∨
          ∃ g ∈ groups, v ∈ versions.filter (fun w => g.1.specifier.accepts w)) := by
  induction groups with
  | nil => intro acc; simp [processGroups]
  | cons g gs ih =>
    intro acc
    unfold processGroups at ih ⊢
    rw [List.foldl_cons]
    rw [ih]
    have hhk := hasKey_foldl_extend g.2 v
      (versions.filter (fun w => g.1.specifier.accepts w)) acc.usable_versions
    simp only at hhk ⊢
    rw [hhk]
    simp only [Bool.or_eq_true, decide_eq_true_eq]
    constructor
    · rintro ((h | h) | ⟨g1, hg1, hv1⟩)
      · exact Or.inl h
      · exact Or.inr ⟨g, List.mem_cons_self g gs, h⟩
      · exact Or.inr ⟨g1, List.mem_cons_of_mem g hg1, hv1⟩
    · rintro (h | ⟨g1, hg1, hv1⟩)
      · exact Or.inl (Or.inl h)
      · rcases List.mem_cons.mp hg1 with rfl | hg1'
        · exact Or.inl (Or.inr hv1)
        · exact Or.inr ⟨g1, hg1', hv1⟩

/-- Distinct keys survive one node of the per-package loop. -/
theorem processGroups_keysNodup (versions : List Version)
    (groups : List (Requirement × List Key)) :
    ∀ (acc : PackageAccum),
      ((acc.usable_versions.map Prod.fst).Nodup) →
      (((processGroups versions acc groups).usable_versions.map Prod.fst).Nodup) := by
  induction groups with
  | nil => intro acc h; exact h
  | cons g gs ih =>
    intro acc h
    unfold processGroups at ih ⊢
    rw [List.foldl_cons]
    apply ih
    exact keysNodup_foldl_extend g.2 _ acc.usable_versions h

/-- The consumer counter over a list of nodes: the initial counter plus
the sum over nodes of the per-group parent counts. -/
theorem accumFold_counter (versions : List Version) (l : List DependencyNode) :
    ∀ (acc : PackageAccum),
      ((l.foldl (fun acc node => processGroups versions acc (parentsByReq node))
          acc).user_counter) =
        acc.user_counter +
          (l.map (fun n => ((parentsByReq n).map (fun g => g.2.length)).sum)).sum := by
  induction l with
  | nil => intro acc; simp
  | cons n ns ih =>
    intro acc
    rw [List.foldl_cons, ih, processGroups_counter]
    simp [Nat.add_assoc]

/-- The acceptor list of a version over a list of nodes: the initial lookup
followed by the contributions of the accepting groups of every node, in
order. -/
theorem accumFold_lookup (versions : List Version) (hv : versions.Nodup)
    (l : List DependencyNode) (v : Version) :
    ∀ (acc : PackageAccum),
      lookupAssoc
          ((l.foldl (fun acc node => processGroups versions acc (parentsByReq node))
            acc).usable_versions) v =
        lookupAssoc acc.usable_versions v ++
          l.flatMap (fun n =>
            (parentsByReq n).flatMap (fun g =>
              if v ∈ versions.filter (fun w => g.1.specifier.accepts w) then g.2 else [])) := by
  induction l with
  | nil => intro acc; simp
  | cons n ns ih =>
    intro acc
    rw [List.foldl_cons, ih, List.flatMap_cons, processGroups_lookup versions hv _ v,
      List.append_assoc]

/-- A version is accumulated over a list of nodes exactly when some group
of some node accepts it. -/
theorem accumFold_hasKey (versions : List Version) (l : List DependencyNode) (v : Version) :
    ∀ (acc : PackageAccum),
      hasKey
          ((l.foldl (fun acc node => processGroups versions acc (parentsByReq node))
            acc).usable_versions) v = true ↔
        (hasKey acc.usable_versions v = true ∨
          ∃ n ∈ l, ∃ g ∈ parentsByReq n,
            v ∈ versions.filter (fun w => g.1.specifier.accepts w)) := by
  induction l with
  | nil => intro acc; simp
  | cons n ns ih =>
    intro acc
    rw [List.foldl_cons, ih, processGroups_hasKey]
    constructor
    · rintro ((h | ⟨g1, hg1, hv1⟩) | ⟨n1, hn1, hg⟩)
      · exact Or.inl h
      · exact Or.inr ⟨n, List.mem_cons_self n ns, g1, hg1, hv1⟩
      · exact Or.inr ⟨n1, List.mem_cons_of_mem n hn1, hg⟩
    · rintro (h | ⟨n1, hn1, hg⟩)
      · exact Or.inl (Or.inl h)
      · rcases List.mem_cons.mp hn1 with rfl | hn1'
        · exact Or.inl (Or.inr hg)
        · exact Or.inr ⟨n1, hn1', hg⟩

/-- Distinct keys survive the whole per-package loop. -/
theorem accumFold_keysNodup (versions : List Version) (l : List DependencyNode) :
    ∀ (acc : PackageAccum),
      ((acc.usable_versions.map Prod.fst).Nodup) →
      (((l.foldl (fun acc node => processGroups versions acc (parentsByReq node))
          acc).usable_versions.map Prod.fst).Nodup) := by
  induction l with
  | nil => intro acc h; exact h
  | cons n ns ih =>
    intro acc h
    rw [List.foldl_cons]
    exact ih _ (processGroups_keysNodup versions (parentsByReq n) acc h)

/-- C1: for the nodes of a package carrying pairwise distinct versions,
explain_duplicates reports a version as usable by all consumers exactly
when the accumulated acceptor count of that version equals the total
consumer count, the total being the sum of the per-specifier-group parent
counts; a consumer declaring the dependency under two different specifiers
for the same package counts once per group and is never deduplicated
across groups, as the example node with one consumer and two specifiers
shows with a total of two. -/
theorem C1_usable_iff_group_count_sum (nodes : List DependencyNode)
    (hv : (nodes.map DependencyNode.versionD).Nodup) :
    ((explainPackageVerdict nodes).isSome = true ↔
      ∃ v, IsAccumulated nodes v ∧
        acceptorCount nodes v = totalConsumerCount nodes) ∧
    totalConsumerCount [xDoubleReqNode] = 2 := by
  refine ⟨?_, by decide⟩
  have hacc : explainPackageAccum nodes =
      (sortNodesByVersion nodes).foldl
        (fun acc node => processGroups (nodes.map DependencyNode.versionD) acc
          (parentsByReq node)) ⟨0, []⟩ := rfl
  have hcnt : (explainPackageAccum nodes).user_counter = totalConsumerCount nodes := by
    rw [hacc, accumFold_counter]
    simp [totalConsumerCount]
  have hlen : ∀ v,
      (lookupAssoc (explainPackageAccum nodes).usable_versions v).length =
        acceptorCount nodes v := by
    intro v
    rw [hacc, accumFold_lookup _ hv _ v ⟨0, []⟩]
    rw [show lookupAssoc (PackageAccum.mk 0 []).usable_versions v = [] from rfl,
      List.nil_append, length_flatMap_sum]
    unfold acceptorCount
    congr 1
    apply List.map_congr_left
    intro n _
    rw [length_flatMap_sum]
    congr 1
    apply List.map_congr_left
    intro g _
    by_cases hc : v ∈ (nodes.map DependencyNode.versionD).filter
        (fun w => g.1.specifier.accepts w) <;> simp [hc]
  have hkey : ∀ v,
      hasKey (explainPackageAccum nodes).usable_versions v = true ↔
        IsAccumulated nodes v := by
    intro v
    rw [hacc, accumFold_hasKey]
    unfold IsAccumulated
    simp [hasKey]
  have hnd : (((explainPackageAccum nodes).usable_versions.map Prod.fst).Nodup) := by
    rw [hacc]
    exact accumFold_keysNodup _ _ ⟨0, []⟩ (by simp)
  have hverdict : explainPackageVerdict nodes =
      ((explainPackageAccum nodes).usable_versions.find?
        (fun p => p.2.length = (explainPackageAccum nodes).user_counter)).map
        (fun p => p.1) := rfl
  rw [hverdict, Option.isSome_map', List.find?_isSome]
  constructor
  · rintro ⟨p, hmem, hp⟩
    refine ⟨p.1, ?_, ?_⟩
    · exact (hkey p.1).mp
        ((hasKey_iff_mem_keys _ p.1).mpr (List.mem_map_of_mem Prod.fst hmem))
    · rw [← hlen p.1, mem_eq_lookupAssoc _ hnd p hmem, ← hcnt]
      exact of_decide_eq_true hp
  · rintro ⟨v, hacc', heq⟩
    have hk : hasKey (explainPackageAccum nodes).usable_versions v = true :=
      (hkey v).mpr hacc'
    rcases List.any_eq_true.mp hk with ⟨p, hmem, hpk⟩
    have hpv : p.1 = v := of_decide_eq_true hpk
    refine ⟨p, hmem, decide_eq_true ?_⟩
    have hlk : lookupAssoc (explainPackageAccum nodes).usable_versions v = p.2 := by
      rw [← hpv]
      exact mem_eq_lookupAssoc _ hnd p hmem
    rw [← hlk, hlen v, heq, hcnt]

/-- Witness of C1 at a concrete input: the node of x with one consumer a
declaring two specifiers has a counter of two, both groups accept the one
version in use, and the verdict reports it usable by all consumers. -/
theorem C1_usable_iff_group_count_sum_witness :
    ((explainPackageVerdict [xDoubleReqNode]).isSome = true ↔
      ∃ v, IsAccumulated [xDoubleReqNode] v ∧
        acceptorCount [xDoubleReqNode] v = totalConsumerCount [xDoubleReqNode]) ∧
    totalConsumerCount [xDoubleReqNode] = 2 :=
  C1_usable_iff_group_count_sum [xDoubleReqNode] (by decide)

/-! ## The seen set of the build-plan formatter -/

/-- One-step unfolding of the formatter on a non-empty worklist. -/
theorem formatRulesList_cons (fuel : Nat) (n : MakeNode) (ns : List MakeNode)
    (seen : List String) :
    formatRulesList (fuel + 1) (n :: ns) seen =
      if n.target_name ∈ seen then formatRulesList fuel ns seen
      else
        (⟨n.target_name, dedupNames (n.dependencies.map MakeNode.target_name), n.command⟩ ::
          ((formatRulesList fuel n.dependencies (n.target_name :: seen)).1 ++
            (formatRulesList fuel ns
              (formatRulesList fuel n.dependencies (n.target_name :: seen)).2).1),
         (formatRulesList fuel ns
           (formatRulesList fuel n.dependencies (n.target_name :: seen)).2).2) := rfl

/-- Invariant of the formatter: the seen set only grows, every emitted rule
is new and recorded, and the emitted target names are pairwise distinct. -/
theorem formatRulesList_inv :
    ∀ (fuel : Nat) (ns : List MakeNode) (seen : List String),
      (∀ s ∈ seen, s ∈ (formatRulesList fuel ns seen).2) ∧
      (∀ r ∈ (formatRulesList fuel ns seen).1,
        r.target_name ∉ seen ∧ r.target_name ∈ (formatRulesList fuel ns seen).2) ∧
      (((formatRulesList fuel ns seen).1.map FormatRule.target_name).Nodup) := by
  intro fuel
  induction fuel with
  | zero =>
    intro ns seen
    refine ⟨fun s hs => hs, ?_, ?_⟩ <;> simp [formatRulesList]
  | succ fuel ih =>
    intro ns seen
    match ns with
    | [] =>
      refine ⟨fun s hs => hs, ?_, ?_⟩ <;> simp [formatRulesList]
    | n :: ns' =>
      rw [formatRulesList_cons]
      by_cases hn : n.target_name ∈ seen
      · rw [if_pos hn]
        exact ih ns' seen
      · rw [if_neg hn]
        obtain ⟨ha1, hb1, hc1⟩ := ih n.dependencies (n.target_name :: seen)
        obtain ⟨ha2, hb2, hc2⟩ :=
          ih ns' (formatRulesList fuel n.dependencies (n.target_name :: seen)).2
        have hseen1 : ∀ s ∈ seen,
            s ∈ (formatRulesList fuel n.dependencies (n.target_name :: seen)).2 :=
          fun s hs => ha1 s (List.mem_cons_of_mem _ hs)
        have htn1 : n.target_name ∈
            (formatRulesList fuel n.dependencies (n.target_name :: seen)).2 :=
          ha1 n.target_name (List.mem_cons_self _ _)
        refine ⟨?_, ?_, ?_⟩
        · intro s hs
          exact ha2 s (hseen1 s hs)
        · intro r hr
          rcases List.mem_cons.mp hr with rfl | hr'
          · exact ⟨hn, ha2 _ htn1⟩
          · rcases List.mem_append.mp hr' with h1 | h2
            · have := hb1 r h1
              exact ⟨fun hx => this.1 (List.mem_cons_of_mem _ hx), ha2 _ this.2⟩
            · have := hb2 r h2
              exact ⟨fun hx => this.1 (hseen1 _ hx), this.2⟩
        · rw [List.map_cons, List.nodup_cons, List.map_append]
          constructor
          · intro hx
            rcases List.mem_append.mp hx with h1 | h2
            · rcases List.mem_map.mp h1 with ⟨r, hr, hrn⟩
              exact (hb1 r hr).1 (hrn ▸ List.mem_cons_self _ _)
            · rcases List.mem_map.mp h2 with ⟨r, hr, hrn⟩
              exact (hb2 r hr).1 (hrn ▸ htn1)
          · rw [List.nodup_append]
            refine ⟨hc1, hc2, ?_⟩
            intro x hx1 hx2
            rcases List.mem_map.mp hx1 with ⟨r, hr, hrn⟩
            rcases List.mem_map.mp hx2 with ⟨r', hr', hrn'⟩
            exact (hb2 r' hr').1 (hrn' ▸ hrn ▸ (hb1 r hr).2)

/-- C7: a node whose target name was already emitted, tracked in the seen
set, is never re-emitted as a rule block while its name still appears in
dependency lists; the emitted target names of any formatter run are
pairwise distinct; and on the diamond graph where a and b both depend on c,
the rule block of c appears exactly once while the install stages of both a
and b reference it. -/
theorem C7_rule_blocks_unique (fuel : Nat) (n : MakeNode) (seen : List String) :
    (n.target_name ∈ seen → formatRulesList (fuel + 1) [n] seen = ([], seen)) ∧
    (((formatRulesList fuel [n] seen).1.map FormatRule.target_name).Nodup) ∧
    (((formatRulesList 100 [makefileTop gDiamond 10] []).1.filter
        (fun r => r.target_name = "c__1.0")).length = 1) ∧
    ((formatRulesList 100 [makefileTop gDiamond 10] []).1.find?
        (fun r => r.target_name = "a__1.0__install") =
      some ⟨"a__1.0__install", ["c__1.0"], ""⟩) ∧
    ((formatRulesList 100 [makefileTop gDiamond 10] []).1.find?
        (fun r => r.target_name = "b__1.0__install") =
      some ⟨"b__1.0__install", ["c__1.0"], ""⟩) := by
  refine ⟨?_, (formatRulesList_inv fuel [n] seen).2.2, by decide, by decide, by decide⟩
  intro hn
  rw [formatRulesList_cons, if_pos hn]
  cases fuel <;> rfl

/-- Witness of C7 at a concrete input: a node whose name is already in the
seen set emits no rule block. -/
theorem C7_rule_blocks_unique_witness :
    formatRulesList (3 + 1) [MakeNode.mk "t" none none "" []] ["t"] = ([], ["t"]) :=
  (C7_rule_blocks_unique 3 (MakeNode.mk "t" none none "" []) ["t"]).1 (by decide)

/-! ## Migration: termination, single visits, reachability -/

/-- One-step unfolding of the migration loop on a non-empty stack. -/
theorem migrateGo_cons (old : LegacyGraph) (fuel : Nat) (k : Key) (rest visited : List Key)
    (g : DependencyGraph) (log : List Key) :
    migrateGo old (fuel + 1) (k :: rest) visited g log =
      if k ∈ visited then migrateGo old fuel rest visited g log
      else
        migrateGo old fuel
          (((lookupEntries old k).map entryChildKey).reverse ++ rest)
          (k :: visited)
          (processEntries k g (lookupEntries old k))
          (log ++ [k]) := rfl

/-- Every key pushed by processing a key sits in the key universe. -/
theorem child_mem_universe (old : LegacyGraph) (k : Key) (e : LegacyEntry)
    (he : e ∈ lookupEntries old k) : entryChildKey e ∈ legacyUniverse old := by
  unfold legacyUniverse
  rw [List.mem_dedup]
  apply List.mem_cons_of_mem
  rw [List.mem_flatMap]
  unfold lookupEntries at he
  cases hf : old.find? (fun p => p.1 = k) with
  | none => rw [hf] at he; simp at he
  | some p =>
    rw [hf] at he
    simp only [Option.map_some', Option.getD_some] at he
    exact ⟨p, List.mem_of_find?_eq_some hf, List.mem_map_of_mem _ he⟩

/-- The ROOT key sits in the key universe. -/
theorem root_mem_universe (old : LegacyGraph) : Key.root ∈ legacyUniverse old := by
  unfold legacyUniverse
  rw [List.mem_dedup]
  exact List.mem_cons_self _ _

/-- No key holds more adjacency tuples than the total bound. -/
theorem lookupEntries_length_le (old : LegacyGraph) (k : Key) :
    (lookupEntries old k).length ≤ legacyEntryBound old := by
  unfold lookupEntries legacyEntryBound
  cases hf : old.find? (fun p => p.1 = k) with
  | none => simp
  | some p =>
    simp only [Option.map_some', Option.getD_some]
    exact List.single_le_sum (fun x _ => Nat.zero_le x) _
      (List.mem_map_of_mem _ (List.mem_of_find?_eq_some hf))

/-- Termination of the migration loop: any fuel at least the stack length
plus a weighted count of the unvisited universe keys completes the
traversal. -/
theorem migrateGo_total (old : LegacyGraph) :
    ∀ (fuel : Nat) (stack visited : List Key) (g : DependencyGraph) (log : List Key),
      (∀ k ∈ stack, k ∈ legacyUniverse old) →
      visited.Nodup → (∀ k ∈ visited, k ∈ legacyUniverse old) →
      stack.length + (legacyEntryBound old + 1) *
        ((legacyUniverse old).length - visited.length) ≤ fuel →
      (migrateGo old fuel stack visited g log).isSome := by
  intro fuel
  induction fuel with
  | zero =>
    intro stack visited g log _ _ _ hm
    cases stack with
    | nil => simp [migrateGo]
    | cons k rest => simp at hm
  | succ fuel ih =>
    intro stack visited g log hs hnd hvu hm
    cases stack with
    | nil => simp [migrateGo]
    | cons k rest =>
      rw [migrateGo_cons]
      by_cases hk : k ∈ visited
      · rw [if_pos hk]
        apply ih rest visited g log (fun x hx => hs x (List.mem_cons_of_mem _ hx)) hnd hvu
        rw [List.length_cons] at hm
        omega
      · rw [if_neg hk]
        have hku : k ∈ legacyUniverse old := hs k (List.mem_cons_self _ _)
        have hnd' : (k :: visited).Nodup := List.nodup_cons.mpr ⟨hk, hnd⟩
        have hvu' : ∀ x ∈ k :: visited, x ∈ legacyUniverse old := by
          intro x hx
          rcases List.mem_cons.mp hx with rfl | hx'
          · exact hku
          · exact hvu x hx'
        have hsub : visited.length + 1 ≤ (legacyUniverse old).length := by
          have := (List.subperm_of_subset hnd' (fun x hx => hvu' x hx)).length_le
          simpa using this
        apply ih _ _ _ _ ?_ hnd' hvu' ?_
        · intro x hx
          rcases List.mem_append.mp hx with hx' | hx'
          · rw [List.mem_reverse] at hx'
            rcases List.mem_map.mp hx' with ⟨e, he, rfl⟩
            exact child_mem_universe old k e he
          · exact hs x (List.mem_cons_of_mem _ hx')
        · have hpl : (((lookupEntries old k).map entryChildKey).reverse).length ≤
              legacyEntryBound old := by
            rw [List.length_reverse, List.length_map]
            exact lookupEntries_length_le old k
          rw [List.length_cons] at hm
          rw [List.length_append, List.length_cons]
          have hA : (legacyUniverse old).length - visited.length =
              ((legacyUniverse old).length - (visited.length + 1)) + 1 := by omega
          rw [hA, Nat.mul_succ] at hm
          set X := (legacyEntryBound old + 1) *
            ((legacyUniverse old).length - (visited.length + 1)) with hX
          omega

/-- A sufficient fuel exists for every legacy mapping. -/
theorem migrate_graph_total (old : LegacyGraph) :
    (migrate_graph old
      (1 + (legacyEntryBound old + 1) * (legacyUniverse old).length)).isSome := by
  unfold migrate_graph
  apply migrateGo_total
  · intro k hk
    rcases List.mem_singleton.mp hk with rfl
    exact root_mem_universe old
  · exact List.nodup_nil
  · intro k hk
    simp at hk
  · simp

/-- The traversal log of the migration loop never repeats a key. -/
theorem migrateGo_log_nodup (old : LegacyGraph) :
    ∀ (fuel : Nat) (stack visited : List Key) (g : DependencyGraph) (log : List Key)
      (gout : DependencyGraph) (out : List Key),
      log.Nodup → (∀ k ∈ log, k ∈ visited) →
      migrateGo old fuel stack visited g log = some (gout, out) → out.Nodup := by
  intro fuel
  induction fuel with
  | zero =>
    intro stack visited g log gout out hnd hlv h
    cases stack with
    | nil =>
      simp only [migrateGo, Option.some_inj, Prod.mk.injEq] at h
      rw [← h.2]
      exact hnd
    | cons k rest => simp [migrateGo] at h
  | succ fuel ih =>
    intro stack visited g log gout out hnd hlv h
    cases stack with
    | nil =>
      simp only [migrateGo, Option.some_inj, Prod.mk.injEq] at h
      rw [← h.2]
      exact hnd
    | cons k rest =>
      rw [migrateGo_cons] at h
      by_cases hk : k ∈ visited
      · rw [if_pos hk] at h
        exact ih rest visited g log gout out hnd hlv h
      · rw [if_neg hk] at h
        apply ih _ _ _ _ gout out ?_ ?_ h
        · rw [List.nodup_append]
          refine ⟨hnd, List.nodup_singleton k, ?_⟩
          intro x hx hx'
          rcases List.mem_singleton.mp hx' with rfl
          exact hk (hlv x hx)
        · intro x hx
          rcases List.mem_append.mp hx with hx' | hx'
          · exact List.mem_cons_of_mem _ (hlv x hx')
          · rcases List.mem_singleton.mp hx' with rfl
            exact List.mem_cons_self _ _

/-- Every key the migration loop processes is reachable from ROOT through
the recorded adjacency tuples. -/
theorem migrateGo_log_reachable (old : LegacyGraph) :
    ∀ (fuel : Nat) (stack visited : List Key) (g : DependencyGraph) (log : List Key)
      (gout : DependencyGraph) (out : List Key),
      (∀ k ∈ stack, LegacyReachable old k) →
      (∀ k ∈ log, LegacyReachable old k) →
      migrateGo old fuel stack visited g log = some (gout, out) →
      ∀ k ∈ out, LegacyReachable old k := by
  intro fuel
  induction fuel with
  | zero =>
    intro stack visited g log gout out _ hlr h
    cases stack with
    | nil =>
      simp only [migrateGo, Option.some_inj, Prod.mk.injEq] at h
      rw [← h.2]
      exact hlr
    | cons k rest => simp [migrateGo] at h
  | succ fuel ih =>
    intro stack visited g log gout out hsr hlr h
    cases stack with
    | nil =>
      simp only [migrateGo, Option.some_inj, Prod.mk.injEq] at h
      rw [← h.2]
      exact hlr
    | cons k rest =>
      rw [migrateGo_cons] at h
      by_cases hk : k ∈ visited
      · rw [if_pos hk] at h
        exact ih rest visited g log gout out
          (fun x hx => hsr x (List.mem_cons_of_mem _ hx)) hlr h
      · rw [if_neg hk] at h
        apply ih _ _ _ _ gout out ?_ ?_ h
        · intro x hx
          rcases List.mem_append.mp hx with hx' | hx'
          · rw [List.mem_reverse] at hx'
            rcases List.mem_map.mp hx' with ⟨e, he, rfl⟩
            exact LegacyReachable.step (hsr k (List.mem_cons_self _ _)) he
          · exact hsr x (List.mem_cons_of_mem _ hx')
        · intro x hx
          rcases List.mem_append.mp hx with hx' | hx'
          · exact hlr x hx'
          · rw [List.mem_singleton.mp hx']
            exact hsr k (List.mem_cons_self _ _)

/-- C2: migration performs a worklist traversal from ROOT with a visited
set; on every legacy mapping a sufficient fuel completes the traversal and
the log of processed keys never repeats a key, and on the chain where a is
re-encountered through b the traversal terminates visiting each key exactly
once. -/
theorem C2_migration_terminates_visits_once (old : LegacyGraph) :
    (∃ fuel g log, migrate_graph old fuel = some (g, log) ∧ log.Nodup) ∧
    ((migrate_graph legacyChain 10).map (fun p => p.2) =
      some [Key.root, Key.pkg "a" (ver 1 0), Key.pkg "b" (ver 2 0)]) := by
  constructor
  · obtain ⟨⟨g, log⟩, hgl⟩ := Option.isSome_iff_exists.mp (migrate_graph_total old)
    exact ⟨_, g, log, hgl,
      migrateGo_log_nodup old _ _ _ _ _ g log List.nodup_nil (by simp) hgl⟩
  · decide

/-- C10: migration adds nodes and edges only for entries whose keys are
reachable from ROOT through the recorded adjacency tuples: every processed
key is reachable, and a legacy mapping with one extra entry under an
unreachable key migrates to exactly the same graph as without it, without
any error. -/
theorem C10_only_reachable_entries :
    (∀ (old : LegacyGraph) (fuel : Nat) (log : List Key),
      (migrate_graph old fuel).map (fun p => p.2) = some log →
      ∀ k ∈ log, LegacyReachable old k) ∧
    (migrate_graph legacyChainJunk 10 = migrate_graph legacyChain 10 ∧
      (migrate_graph legacyChainJunk 10).isSome = true) := by
  constructor
  · intro old fuel log h
    rcases Option.map_eq_some'.mp h with ⟨⟨g, log'⟩, hgl, hlog⟩
    simp only at hlog
    subst hlog
    apply migrateGo_log_reachable old fuel _ _ _ _ g log' ?_ ?_ hgl
    · intro k hk
      rcases List.mem_singleton.mp hk with rfl
      exact LegacyReachable.root
    · intro k hk
      simp at hk
  · exact ⟨by decide, by decide⟩

/-- Witness of C10 at a concrete input: the key of b, processed by the
migration of the junk-extended chain, is reachable from ROOT there. -/
theorem C10_only_reachable_entries_witness :
    LegacyReachable legacyChainJunk (Key.pkg "b" (ver 2 0)) :=
  C10_only_reachable_entries.1 legacyChainJunk 10
    [Key.root, Key.pkg "a" (ver 1 0), Key.pkg "b" (ver 2 0)] (by decide)
    (Key.pkg "b" (ver 2 0)) (by decide)
